import Mathlib

/-!
Verification development for the PCK archive mutation engine
(`src/pck.rs` of `bpb_enhance`).

The archive file is modelled as a list of bytes (`List Nat`), a Rust
`String` as its list of Unicode scalar values (`List Nat` code points),
and the fallible Rust functions as `Except`-valued Lean functions.
Mutating functions return the resulting file; when they fail, the error
carries the file as it stood at the moment of failure, so that claims
about "no destructive write before the error" are statable.
-/

namespace Pck

/-- Sequence of Unicode scalar values, the model of a Rust `String`. -/
abbrev Path := List Nat

/-- Byte content of the archive file. -/
abbrev FileBytes := List Nat

/-! ## UTF-8 codec (model of Rust `String::from_utf8` / `str::as_bytes`) -/

/-- Validity of a Unicode scalar value: below the surrogate range or
between it and 0x110000, as the Rust `char` type guarantees. -/
def isValidCp (c : Nat) : Bool :=
  c < 0xD800 || (0xDFFF < c && c < 0x110000)

/-- UTF-8 encoding of one Unicode scalar value. -/
def utf8EncodeCp (c : Nat) : List Nat :=
  if c < 0x80 then [c]
  else if c < 0x800 then [0xC0 + c / 64, 0x80 + c % 64]
  else if c < 0x10000 then
    [0xE0 + c / 4096, 0x80 + c / 64 % 64, 0x80 + c % 64]
  else
    [0xF0 + c / 262144, 0x80 + c / 4096 % 64, 0x80 + c / 64 % 64, 0x80 + c % 64]

/-- UTF-8 encoding of a string (its scalar-value sequence). -/
def utf8Encode (s : Path) : List Nat :=
  s.flatMap utf8EncodeCp

/-- Continuation-byte test for the UTF-8 decoder. -/
def isCont (b : Nat) : Bool := 0x80 ≤ b && b < 0xC0

/-- Reading `k` continuation bytes, accumulating their 6-bit payloads
big-endian; fails on a non-continuation byte or a short input. -/
def contBytes : Nat → List Nat → Option (Nat × List Nat)
  | 0, l => some (0, l)
  | _ + 1, [] => none
  | k + 1, b :: l =>
    if isCont b then
      (contBytes k l).map (fun r => ((b - 0x80) * 64 ^ k + r.1, r.2))
    else none

/-- Decoding one UTF-8 scalar value from the head of the byte list,
returning it with the remaining bytes. Rejects overlong forms,
surrogates and out-of-range values, as Rust `String::from_utf8` does. -/
def utf8DecodeOne : List Nat → Option (Nat × List Nat)
  | [] => none
  | b0 :: rest =>
    if b0 < 0x80 then some (b0, rest)
    else if b0 < 0xC2 then none
    else if b0 < 0xE0 then
      (contBytes 1 rest).bind (fun r => some ((b0 - 0xC0) * 64 + r.1, r.2))
    else if b0 < 0xF0 then
      (contBytes 2 rest).bind (fun r =>
        let c := (b0 - 0xE0) * 4096 + r.1
        if 0x800 ≤ c && (c < 0xD800 || 0xDFFF < c) then some (c, r.2) else none)
    else if b0 < 0xF5 then
      (contBytes 3 rest).bind (fun r =>
        let c := (b0 - 0xF0) * 262144 + r.1
        if 0x10000 ≤ c && c < 0x110000 then some (c, r.2) else none)
    else none

/-- Fuel-bounded decoding loop; each scalar value consumes at least one
byte, so `l.length` fuel always suffices. -/
def utf8DecodeFuel : Nat → List Nat → Option (List Nat)
  | _, [] => some []
  | 0, _ :: _ => none
  | fuel + 1, b0 :: rest =>
    match utf8DecodeOne (b0 :: rest) with
    | none => none
    | some cr => (utf8DecodeFuel fuel cr.2).map (cr.1 :: ·)

/-- Strict UTF-8 decoder: the scalar-value sequence on success, `none`
on any invalid input. -/
def utf8Decode (l : List Nat) : Option (List Nat) :=
  utf8DecodeFuel l.length l

/-- Removal of trailing NUL scalar values, the model of
`trim_end_matches` with a NUL pattern. -/
def trimTrailingNuls (s : Path) : Path :=
  (s.reverse.dropWhile (· == 0)).reverse

/-! ## Little-endian integer codec -/

/-- Little-endian 4-byte encoding of a `u32` value. -/
def le32 (n : Nat) : List Nat :=
  [n % 256, n / 256 % 256, n / 65536 % 256, n / 16777216 % 256]

/-- Little-endian 8-byte encoding of a `u64` value. -/
def le64 (n : Nat) : List Nat :=
  [n % 256, n / 256 % 256, n / 65536 % 256, n / 16777216 % 256,
   n / 4294967296 % 256, n / 1099511627776 % 256,
   n / 281474976710656 % 256, n / 72057594037927936 % 256]

/-- Value of a little-endian byte sequence. -/
def leVal (bs : List Nat) : Nat :=
  bs.foldr (fun b acc => b + 256 * acc) 0

/-! ## File primitives -/

/-- Reading `n` bytes at position `pos`; fails past end of file, as
`read_exact` does. -/
def readBytes (f : FileBytes) (pos n : Nat) : Option (List Nat) :=
  if pos + n ≤ f.length then some ((f.drop pos).take n) else none

/-- Reading a little-endian `u32` at `pos`. -/
def readU32 (f : FileBytes) (pos : Nat) : Option Nat :=
  (readBytes f pos 4).map leVal

/-- Reading a little-endian `u64` at `pos`. -/
def readU64 (f : FileBytes) (pos : Nat) : Option Nat :=
  (readBytes f pos 8).map leVal

/-- Overwriting bytes at `[pos, pos + data.length)`; positions past the
current end of file are zero-filled first, as seeking past EOF and
writing does. -/
def writeBytes (f : FileBytes) (pos : Nat) (data : List Nat) : FileBytes :=
  f.take pos ++ List.replicate (pos - f.length) 0 ++ data ++
    f.drop (pos + data.length)

/-- Model of `File::set_len`: truncate or zero-extend to length `n`. -/
def setLen (f : FileBytes) (n : Nat) : FileBytes :=
  if n ≤ f.length then f.take n else f ++ List.replicate (n - f.length) 0

/-! ## Data model (`Header`, `RawFileEntry`, `EntryRecord`) -/

/-- PCK header fields; the 4-byte magic `GDPC` is implicit in the codec. -/
structure Header where
  version : Nat
  godot_version_major : Nat
  godot_version_minor : Nat
  godot_version_patch : Nat
  reserved : List Nat
  file_count : Nat
deriving Repr, DecidableEq

/-- Raw on-disk file entry record. -/
structure RawFileEntry where
  path_len : Nat
  path_bytes : List Nat
  offset : Nat
  size : Nat
  md5 : List Nat
deriving Repr, DecidableEq

/-- Decoding of an entry path: UTF-8 conversion followed by stripping
trailing NUL characters (`RawFileEntry::path`). -/
def RawFileEntry.path (e : RawFileEntry) : Except String Path :=
  match utf8Decode e.path_bytes with
  | some s => .ok (trimTrailingNuls s)
  | none => .error "invalid UTF-8 in entry path"

/-- One record of the in-memory multi-index structure `EntryRecord`. -/
structure EntryRecord where
  path : Path
  table_offset : Nat
  entry : RawFileEntry
deriving Repr, DecidableEq

/-- The multi-index map over entries, held as a list sorted by
`table_offset` (the order `iter_by_table_offset` yields). -/
abbrev EntryMap := List EntryRecord

/-! ## Binary codec (model of the binrw derive on `Header` and
`RawFileEntry`) -/

/-- Byte sequence of the magic `GDPC`. -/
def gdpcMagic : List Nat := [0x47, 0x44, 0x50, 0x43]

/-- Serialized byte size of the header: magic + 21 `u32` fields. -/
def headerSize : Nat := 88

/-- Reading `n` consecutive little-endian `u32` values at `pos`. -/
def readU32List (f : FileBytes) : Nat → Nat → Option (List Nat)
  | _, 0 => some []
  | pos, n + 1 =>
    match readU32 f pos, readU32List f (pos + 4) n with
    | some v, some vs => some (v :: vs)
    | _, _ => none

/-- Parsing the header at offset 0: magic check, little-endian field
decode, the binrw asserts `version == 1` and `file_count > 0`. -/
def parseHeader (f : FileBytes) : Except String Header :=
  match readBytes f 0 4 with
  | none => .error "failed to read PCK header"
  | some magic =>
    if magic ≠ gdpcMagic then .error "failed to read PCK header" else
    match readU32 f 4, readU32 f 8, readU32 f 12, readU32 f 16,
        readU32List f 20 16, readU32 f 84 with
    | some ver, some gmaj, some gmin, some gpat, some res, some fc =>
      if ver ≠ 1 then .error "only PCK version 1 is supported"
      else if fc = 0 then .error "no files in PCK"
      else .ok ⟨ver, gmaj, gmin, gpat, res, fc⟩
    | _, _, _, _, _, _ => .error "failed to read PCK header"

/-- Parsing one `RawFileEntry` at position `pos`; returns the record and
the position just past it. -/
def parseEntry (f : FileBytes) (pos : Nat) : Except String (RawFileEntry × Nat) :=
  match readU32 f pos with
  | none => .error "failed to read RawFileEntry"
  | some plen =>
    match readBytes f (pos + 4) plen, readU64 f (pos + 4 + plen),
        readU64 f (pos + 12 + plen), readBytes f (pos + 20 + plen) 16 with
    | some pb, some off, some sz, some md =>
      .ok (⟨plen, pb, off, sz, md⟩, pos + 36 + plen)
    | _, _, _, _ => .error "failed to read RawFileEntry"

/-- Serialization of one entry record, field by field in read order. -/
def serializeEntry (e : RawFileEntry) : List Nat :=
  le32 e.path_len ++ e.path_bytes ++ le64 e.offset ++ le64 e.size ++ e.md5

/-- Serialization of the whole entry table in `table_offset` order. -/
def serializeTable (m : EntryMap) : List Nat :=
  m.flatMap (fun r => serializeEntry r.entry)

/-- Serialization of the header, mirroring the parse order. -/
def serializeHeader (h : Header) : List Nat :=
  gdpcMagic ++ le32 h.version ++ le32 h.godot_version_major ++
    le32 h.godot_version_minor ++ le32 h.godot_version_patch ++
    h.reserved.flatMap le32 ++ le32 h.file_count

/-! ## Index returned by `read_header_and_index` (a `HashMap` model) -/

/-- Insertion into the path-to-offset map; an existing binding for the
same key is replaced, as `HashMap::insert` does. -/
def insertA (m : List (Path × Nat)) (k : Path) (v : Nat) : List (Path × Nat) :=
  m.filter (fun kv => kv.1 ≠ k) ++ [(k, v)]

/-- Lookup in the path-to-offset map; the keys are unique by
construction, so first match is the binding. -/
def lookupA : List (Path × Nat) → Path → Option Nat
  | [], _ => none
  | (k, v) :: rest, p => if k = p then some v else lookupA rest p

/-- Reading `n` entry records from `pos` on, folding each decoded path
and its record table offset into the index. -/
def readEntries (f : FileBytes) : Nat → Nat → List (Path × Nat) →
    Except String (List (Path × Nat))
  | _, 0, acc => .ok acc
  | pos, n + 1, acc =>
    match parseEntry f pos with
    | .error e => .error e
    | .ok (entry, next) =>
      match entry.path with
      | .error _ => .error "invalid UTF-8 in entry path"
      | .ok p => readEntries f next n (insertA acc p pos)

/-- Model of `read_header_and_index`: header plus the map from decoded
path to the byte offset of the record inside the entry table. -/
def read_header_and_index (f : FileBytes) :
    Except String (Header × List (Path × Nat)) :=
  match parseHeader f with
  | .error e => .error e
  | .ok h =>
    match readEntries f headerSize h.file_count [] with
    | .error e => .error e
    | .ok idx => .ok (h, idx)

/-- Sequential parse of `n` records from `pos`, collecting each record
with its table offset; the reference description of what is on disk. -/
def rawSeq (f : FileBytes) : Nat → Nat → Except String (List (Nat × RawFileEntry))
  | _, 0 => .ok []
  | pos, n + 1 =>
    match parseEntry f pos with
    | .error e => .error e
    | .ok (entry, next) => (rawSeq f next n).map ((pos, entry) :: ·)

/-! ## Table planning (`entry_binary_size`, `normalized_path_bytes`,
`plan_table`) -/

/-- Serialized byte size of an entry record with the given path length:
path-length field + path bytes + offset + size + md5. -/
def entry_binary_size (path_len : Nat) : Nat :=
  4 + path_len + 8 + 8 + 16

/-- UTF-8 bytes of a path, NUL-padded up to a multiple of 4, as the
push-until-aligned loop produces. -/
def normalized_path_bytes (p : Path) : List Nat :=
  utf8Encode p ++ List.replicate ((4 - (utf8Encode p).length % 4) % 4) 0

/-- Projected table interval data computed by `plan_table`. -/
structure TablePlan where
  table_start : Nat
  table_end_after : Nat
  next_new_table_offset : Nat
deriving Repr, DecidableEq

/-- Total serialized byte size of the records of a map. -/
def tableSize (m : EntryMap) : Nat :=
  (m.map (fun r => entry_binary_size r.entry.path_len)).sum

/-- Model of `plan_table`: first table offset, projected table end after
the additions, and the first free table slot for new records. The head
of the map is the first record in `table_offset` order. -/
def plan_table (m : EntryMap) (add_inputs : List (Path × List Nat)) :
    Except String TablePlan :=
  match m with
  | [] => .error "empty entry list"
  | e0 :: _ =>
    let table_start := e0.table_offset
    let current := tableSize m
    let additional :=
      (add_inputs.map
        (fun pd => entry_binary_size (normalized_path_bytes pd.1).length)).sum
    .ok ⟨table_start, table_start + current + additional,
      table_start + current⟩

/-! ## Entry index construction and maintenance -/

/-- Ordering of path-to-table-offset pairs by table offset. -/
def offsetLe (a b : Path × Nat) : Prop := a.2 ≤ b.2

instance : DecidableRel offsetLe := fun a b => Nat.decLe a.2 b.2

instance : IsTotal (Path × Nat) offsetLe := ⟨fun a b => Nat.le_total a.2 b.2⟩

instance : IsTrans (Path × Nat) offsetLe := ⟨fun _ _ _ => Nat.le_trans⟩

/-- Parsing an entry record for each pair of the sorted offset list. -/
def buildEntries (f : FileBytes) : List (Path × Nat) → Except String EntryMap
  | [] => .ok []
  | (p, off) :: rest =>
    match parseEntry f off with
    | .error _ => .error "failed to read entry"
    | .ok (entry, _) =>
      match buildEntries f rest with
      | .error e => .error e
      | .ok rs => .ok (⟨p, off, entry⟩ :: rs)

/-- Model of `build_entry_map`: every `(path, table_offset)` pair is
re-parsed from the file and inserted into the multi-index structure;
the result is its `table_offset`-ordered view. -/
def build_entry_map (f : FileBytes) (entry_offsets : List (Path × Nat)) :
    Except String EntryMap :=
  buildEntries f (List.insertionSort offsetLe entry_offsets)

/-- Membership of a path in the index (`get_by_path(...).is_some()`). -/
def hasPath (m : EntryMap) (p : Path) : Bool :=
  m.any (fun r => r.path = p)

/-- Model of `update_by_path`: rewrite the entry payload of the record
with the given path; `none` when the path is absent. -/
def update_by_path (m : EntryMap) (p : Path) (g : RawFileEntry → RawFileEntry) :
    Option EntryMap :=
  if hasPath m p then
    some (m.map (fun r => if r.path = p then ⟨r.path, r.table_offset, g r.entry⟩ else r))
  else none

/-- Ordered insertion of a new record by `table_offset`, the effect of
inserting into the `ordered_unique` index. -/
def insertSorted (x : EntryRecord) : EntryMap → EntryMap
  | [] => [x]
  | r :: rs =>
    if x.table_offset ≤ r.table_offset then x :: r :: rs
    else r :: insertSorted x rs

/-- Model of `split_inputs`: partition the incoming batch into replace
(path already indexed) and add (path not indexed), keeping order. -/
def split_inputs (files : List (Path × List Nat)) (m : EntryMap) :
    List (Path × List Nat) × List (Path × List Nat) :=
  match files with
  | [] => ([], [])
  | (p, d) :: rest =>
    let pr := split_inputs rest m
    if hasPath m p then ((p, d) :: pr.1, pr.2) else (pr.1, (p, d) :: pr.2)

/-- Duplicate detection over the incoming batch paths, the `HashSet`
insert loop. -/
def hasDupPath : List Path → Bool
  | [] => false
  | p :: ps => ps.contains p || hasDupPath ps

/-! ## Append channel (`AppendCtx`) -/

/-- Append context: the file content and the tracked append position,
initialized at end of file. -/
structure AppendCtx where
  file : FileBytes
  append_pos : Nat
deriving Repr, DecidableEq

/-- Model of `AppendCtx::new`. -/
def AppendCtx.new (f : FileBytes) : AppendCtx := ⟨f, f.length⟩

/-- Model of `append_bytes`: seek the writer to the tracked append
position, write, advance, and return the offset the data starts at. -/
def AppendCtx.append_bytes (c : AppendCtx) (data : List Nat) : AppendCtx × Nat :=
  (⟨writeBytes c.file c.append_pos data, c.append_pos + data.length⟩,
    c.append_pos)

/-- Model of `move_range`: read the byte range through the reader cursor
(failing past end of file, as `read_exact` does), then append it. -/
def AppendCtx.move_range (c : AppendCtx) (off sz : Nat) :
    Except String (AppendCtx × Nat) :=
  if off + sz ≤ c.file.length then
    .ok (c.append_bytes ((c.file.drop off).take sz))
  else .error "failed to read data"

/-! ## The replace/add pass (`replace_files_in_pck`), split into the
phases of the source, each threading the append context so that the
file state at any failure point is explicit -/

/-- Entries to be migrated: not in the replace set, data offset below
the projected table end. -/
def moveTargets (m : EntryMap) (replace_paths : List Path) (plan : TablePlan) :
    List (Path × Nat × Nat) :=
  (m.filter (fun r =>
      !replace_paths.contains r.path && r.entry.offset < plan.table_end_after)).map
    (fun r => (r.path, r.entry.offset, r.entry.size))

/-- Migration loop: move each target range to the end of file and store
the new data offset in the index. -/
def movePhase (c : AppendCtx) (m : EntryMap) :
    List (Path × Nat × Nat) → Except (String × AppendCtx) (AppendCtx × EntryMap)
  | [] => .ok (c, m)
  | (p, off, sz) :: rest =>
    match c.move_range off sz with
    | .error e => .error (e, c)
    | .ok (c1, noff) =>
      match update_by_path m p (fun e => ⟨e.path_len, e.path_bytes, noff, e.size, e.md5⟩) with
      | none => .error ("entry missing during move", c1)
      | some m1 => movePhase c1 m1 rest

/-- Addition loop: append each payload, build a full record with
normalized path bytes and its checksum, and insert it at the next free
table slot. `md5c` is the MD5 digest function of the external crate. -/
def addPhase (md5c : List Nat → List Nat) (c : AppendCtx) (m : EntryMap)
    (next : Nat) : List (Path × List Nat) → AppendCtx × EntryMap
  | [] => (c, m)
  | (p, d) :: rest =>
    let pb := normalized_path_bytes p
    let r := c.append_bytes d
    let raw : RawFileEntry := ⟨pb.length, pb, r.2, d.length, md5c d⟩
    addPhase md5c r.1 (insertSorted ⟨p, next, raw⟩ m)
      (next + entry_binary_size pb.length) rest

/-- Replacement loop: append each payload and update the existing
record's offset, size and checksum in place. -/
def replacePhase (md5c : List Nat → List Nat) (c : AppendCtx) (m : EntryMap) :
    List (Path × List Nat) → Except (String × AppendCtx) (AppendCtx × EntryMap)
  | [] => .ok (c, m)
  | (p, d) :: rest =>
    let r := c.append_bytes d
    match update_by_path m p
        (fun e => ⟨e.path_len, e.path_bytes, r.2, d.length, md5c d⟩) with
    | none => .error ("entry not found in PCK", r.1)
    | some m1 => replacePhase md5c r.1 m1 rest

/-- Minimum data offset over all records (`min_by_key` on offsets). -/
def minDataOffset : EntryMap → Option Nat
  | [] => none
  | r :: rs =>
    some (match minDataOffset rs with
      | none => r.entry.offset
      | some v => min r.entry.offset v)

/-- Final step of the replace pass: the table-overflow guard, the `u32`
bound on the file count, then the in-place header and table rewrite.
The commented-out truncation of the source is absent. -/
def writeBack (f : FileBytes) (header : Header) (plan : TablePlan)
    (m : EntryMap) : Except String FileBytes :=
  match minDataOffset m with
  | none => .error "no entries to write"
  | some minOff =>
    if plan.table_start + tableSize m > minOff then
      .error "table overflow"
    else if m.length ≥ 4294967296 then
      .error "file count exceeds u32"
    else
      let h1 : Header := { header with file_count := m.length }
      let f1 := writeBytes f 0 (serializeHeader h1)
      .ok (writeBytes f1 plan.table_start (serializeTable m))

/-- Model of `replace_files_in_pck`. On failure the error carries the
file content as mutated so far. -/
def replace_files_in_pck (md5c : List Nat → List Nat) (f : FileBytes)
    (header : Header) (entry_offsets : List (Path × Nat))
    (files : List (Path × List Nat)) :
    Except (String × FileBytes) FileBytes :=
  if files.isEmpty then .ok f
  else if hasDupPath (files.map Prod.fst) then .error ("duplicate path", f)
  else
    match build_entry_map f entry_offsets with
    | .error e => .error (e, f)
    | .ok m =>
      let ra := split_inputs files m
      match plan_table m ra.2 with
      | .error e => .error (e, f)
      | .ok plan =>
        let rpaths := ra.1.map Prod.fst
        match movePhase (AppendCtx.new f) m (moveTargets m rpaths plan) with
        | .error ec => .error (ec.1, ec.2.file)
        | .ok cm1 =>
          let cm2 := addPhase md5c cm1.1 cm1.2 plan.next_new_table_offset ra.2
          match replacePhase md5c cm2.1 cm2.2 ra.1 with
          | .error ec => .error (ec.1, ec.2.file)
          | .ok cm3 =>
            match writeBack cm3.1.file header plan cm3.2 with
            | .error e => .error (e, cm3.1.file)
            | .ok f1 => .ok f1

/-! ## The delete pass (`delete_files_in_pck`) -/

/-- Re-layout of the surviving records contiguously from `cur`,
returning the new records and the final running offset. -/
def relayoutGo (rm : List Path) (cur : Nat) : EntryMap → EntryMap × Nat
  | [] => ([], cur)
  | r :: rest =>
    if rm.contains r.path then relayoutGo rm cur rest
    else
      let next := relayoutGo rm (cur + entry_binary_size r.entry.path_len) rest
      (⟨r.path, cur, r.entry⟩ :: next.1, next.2)

/-- Maximum data end (`offset + size`) over a record list, 0 when empty. -/
def maxDataEnd (m : EntryMap) : Nat :=
  (m.map (fun r => r.entry.offset + r.entry.size)).foldr max 0

/-- Model of `delete_files_in_pck`. On failure the error carries the
file, which the delete pass never touches before its last step. -/
def delete_files_in_pck (f : FileBytes) (header : Header)
    (entry_offsets : List (Path × Nat)) (paths : List Path) :
    Except (String × FileBytes) FileBytes :=
  if paths.isEmpty then .ok f
  else if hasDupPath paths then .error ("duplicate path", f)
  else
    match build_entry_map f entry_offsets with
    | .error e => .error (e, f)
    | .ok m =>
      let existing := paths.filter (fun p => hasPath m p)
      if existing.isEmpty then .ok f
      else
        match m with
        | [] => .error ("empty entry list", f)
        | e0 :: _ =>
          let table_start := e0.table_offset
          let rl := relayoutGo existing table_start m
          if rl.1.isEmpty then
            .error ("no remaining entries after deletion", f)
          else
            let recalc := rl.2 - table_start
            match minDataOffset rl.1 with
            | none => .error ("no entries to write after deletion", f)
            | some minOff =>
              if table_start + recalc > minOff then
                .error ("table overflow after deletion", f)
              else if rl.1.length ≥ 4294967296 then
                .error ("file count exceeds u32", f)
              else
                let h1 : Header := { header with file_count := rl.1.length }
                let f1 := writeBytes f 0 (serializeHeader h1)
                let f2 := writeBytes f1 table_start (serializeTable rl.1)
                let table_end := table_start + recalc
                let data_end := if rl.1.isEmpty then table_end else maxDataEnd rl.1
                .ok (setLen f2 (max table_end data_end))

/-! ## Derived views of the parsed entry sequence -/

/-- Error test for `Except` results. -/
def isErr : Except String α → Bool
  | .error _ => true
  | .ok _ => false

/-- Total variant of the path decode, defaulting to the empty path;
used only to state facts about records whose decode is known to
succeed. -/
def decodePathD (e : RawFileEntry) : Path :=
  match utf8Decode e.path_bytes with
  | some s => trimTrailingNuls s
  | none => []

/-- Decoded `(path, table_offset)` pairs of a parsed record sequence. -/
def pairsOf (rs : List (Nat × RawFileEntry)) : List (Path × Nat) :=
  rs.map (fun oe => (decodePathD oe.2, oe.1))

/-- Folding a pair list into the index with `insertA`. -/
def foldInsert (acc : List (Path × Nat)) (prs : List (Path × Nat)) :
    List (Path × Nat) :=
  prs.foldl (fun m pr => insertA m pr.1 pr.2) acc

/-- Table offset of the last pair carrying the given key. -/
def lastOffsetOf : List (Path × Nat) → Path → Option Nat
  | [], _ => none
  | (k, v) :: rest, p =>
    match lastOffsetOf rest p with
    | some w => some w
    | none => if k = p then some v else none

/-! ## Concrete test fixtures used by the claim witnesses -/

/-- Placeholder digest function standing in for the MD5 crate in
concrete evaluations; the theorems hold for every digest function. -/
def md5z : List Nat → List Nat := fun _ => List.replicate 16 0

/-- Header of the two-entry test archive. -/
def hdrA : Header := ⟨1, 0, 0, 0, List.replicate 16 0, 2⟩

/-- Record bytes of entry "a": data at offset 200, size 4. -/
def entryBytesA : List Nat :=
  le32 1 ++ [97] ++ le64 200 ++ le64 4 ++ List.replicate 16 0

/-- Record bytes of entry "b": data at offset 204, size 4. -/
def entryBytesB : List Nat :=
  le32 1 ++ [98] ++ le64 204 ++ le64 4 ++ List.replicate 16 0

/-- Record bytes of a second entry also named "a", data at offset 204. -/
def entryBytesA2 : List Nat :=
  le32 1 ++ [97] ++ le64 204 ++ le64 4 ++ List.replicate 16 0

/-- Two-entry test archive: header, records at 88 and 125, padding, then
4 data bytes for each entry at 200 and 204; 208 bytes in all. -/
def fA : FileBytes :=
  serializeHeader hdrA ++ entryBytesA ++ entryBytesB ++
    List.replicate 38 0 ++ [1, 1, 1, 1] ++ [2, 2, 2, 2]

/-- Entry-offset index of `fA`, as `read_header_and_index` returns it. -/
def eoA : List (Path × Nat) := [([97], 88), ([98], 125)]

/-- Entry map of `fA`, as `build_entry_map` returns it. -/
def mA : EntryMap :=
  [⟨[97], 88, ⟨1, [97], 200, 4, List.replicate 16 0⟩⟩,
   ⟨[98], 125, ⟨1, [98], 204, 4, List.replicate 16 0⟩⟩]

/-- Test archive with two records whose decoded paths are both "a". -/
def fDup : FileBytes :=
  serializeHeader hdrA ++ entryBytesA ++ entryBytesA2 ++
    List.replicate 38 0 ++ [1, 1, 1, 1] ++ [2, 2, 2, 2]

/-! ## Byte-level lemmas -/

theorem writeBytes_at_end (f : FileBytes) (data : List Nat)
    (h : pos = f.length) : writeBytes f pos data = f ++ data := by
  subst h
  simp [writeBytes]

theorem length_writeBytes (f : FileBytes) (pos : Nat) (data : List Nat) :
    (writeBytes f pos data).length = max f.length (pos + data.length) := by
  simp only [writeBytes, List.length_append, List.length_take,
    List.length_replicate, List.length_drop]
  omega

theorem length_setLen (f : FileBytes) (n : Nat) : (setLen f n).length = n := by
  simp only [setLen]
  split <;> simp <;> omega

theorem writeBytes_of_le (f : FileBytes) (pos : Nat) (data : List Nat)
    (h : pos ≤ f.length) :
    writeBytes f pos data = f.take pos ++ data ++ f.drop (pos + data.length) := by
  simp [writeBytes, Nat.sub_eq_zero_of_le h]

theorem drop_writeBytes_above (f : FileBytes) (pos q : Nat) (data : List Nat)
    (h : pos ≤ f.length) (h2 : pos + data.length ≤ q) :
    (writeBytes f pos data).drop q = f.drop q := by
  rw [writeBytes_of_le f pos data h]
  rw [List.drop_append_eq_append_drop]
  have hA : (f.take pos ++ data).length = pos + data.length := by
    simp
    omega
  rw [List.drop_eq_nil_of_le (by rw [hA]; omega), List.nil_append, hA,
    List.drop_drop]
  congr 1
  omega

theorem take_drop_append_of_le (f ext : FileBytes) (q n : Nat)
    (h : q + n ≤ f.length) :
    ((f ++ ext).drop q).take n = (f.drop q).take n := by
  rw [List.drop_append_eq_append_drop, List.take_append_eq_append_take]
  have h1 : (f.drop q).length = f.length - q := by simp
  have h2 : n - (f.drop q).length = 0 := by omega
  rw [h2, List.take_zero, List.append_nil]

theorem readBytes_writeBytes_within (f : FileBytes) (pos q n : Nat)
    (data : List Nat) (h : pos ≤ f.length) (h2 : q + n ≤ data.length) :
    readBytes (writeBytes f pos data) (pos + q) n =
      some ((data.drop q).take n) := by
  have hl := length_writeBytes f pos data
  rw [readBytes, if_pos (by omega)]
  congr 1
  rw [writeBytes_of_le f pos data h, List.append_assoc,
    List.drop_append_eq_append_drop]
  have hlt : (f.take pos).length = pos := by
    simp
    omega
  rw [List.drop_eq_nil_of_le (by rw [hlt]; omega), List.nil_append, hlt]
  have hq : pos + q - pos = q := by omega
  rw [hq, List.drop_append_eq_append_drop, List.take_append_eq_append_take]
  have hdl : (data.drop q).length = data.length - q := by simp
  have hz : n - (data.drop q).length = 0 := by omega
  rw [hz, List.take_zero, List.append_nil]

theorem readBytes_writeBytes_below (f : FileBytes) (pos q n : Nat)
    (data : List Nat) (h : q + n ≤ pos) (h2 : q + n ≤ f.length) :
    readBytes (writeBytes f pos data) q n = readBytes f q n := by
  have hl := length_writeBytes f pos data
  rw [readBytes, readBytes, if_pos (by omega), if_pos (by omega)]
  congr 1
  apply List.ext_getElem
  · simp only [List.length_take, List.length_drop]
    omega
  intro i h1 h2'
  have hi : i < n := by
    simp only [List.length_take, List.length_drop] at h1
    omega
  simp only [List.getElem_take, List.getElem_drop]
  simp only [writeBytes]
  rw [List.getElem_append_left, List.getElem_append_left,
    List.getElem_append_left, List.getElem_take]
  · simp only [List.length_take]
    omega
  · simp only [List.length_append, List.length_take, List.length_replicate]
    omega
  · simp only [List.length_append, List.length_take, List.length_replicate]
    omega

theorem readBytes_setLen (f : FileBytes) (k q n : Nat) (h : q + n ≤ k)
    (h2 : q + n ≤ f.length) :
    readBytes (setLen f k) q n = readBytes f q n := by
  have hl := length_setLen f k
  rw [readBytes, readBytes, if_pos (by omega), if_pos (by omega)]
  congr 1
  apply List.ext_getElem
  · simp only [List.length_take, List.length_drop]
    omega
  intro i h1 h2'
  have hi : i < n := by
    simp only [List.length_take, List.length_drop] at h1
    omega
  simp only [List.getElem_take, List.getElem_drop]
  simp only [setLen]
  split
  · rw [List.getElem_take]
  · rw [List.getElem_append_left (by omega)]

theorem leVal_le32 (n : Nat) : leVal (le32 n) = n % 4294967296 := by
  simp only [le32, leVal, List.foldr]
  omega

theorem length_le32 (n : Nat) : (le32 n).length = 4 := rfl

/-! ## UTF-8 codec lemmas -/

theorem contBytes_length_le (k : Nat) (l : List Nat) (c : Nat) (r : List Nat)
    (h : contBytes k l = some (c, r)) : r.length ≤ l.length := by
  induction k generalizing l c r with
  | zero =>
    simp only [contBytes, Option.some.injEq, Prod.mk.injEq] at h
    exact h.2 ▸ Nat.le_refl _
  | succ n ih =>
    match l with
    | [] => simp [contBytes] at h
    | b :: t =>
      simp only [contBytes] at h
      split at h
      · match hc : contBytes n t with
        | none => rw [hc] at h; simp at h
        | some cr =>
          rw [hc] at h
          simp only [Option.map_some', Option.some.injEq, Prod.mk.injEq] at h
          have := ih t cr.1 cr.2 (by rw [hc])
          rw [← h.2]
          simp only [List.length_cons]
          omega
      · simp at h

theorem utf8DecodeOne_length_lt (l : List Nat) (c : Nat) (r : List Nat)
    (h : utf8DecodeOne l = some (c, r)) : r.length < l.length := by
  match l with
  | [] => simp [utf8DecodeOne] at h
  | b0 :: rest =>
    simp only [utf8DecodeOne] at h
    split at h
    · simp only [Option.some.injEq, Prod.mk.injEq] at h
      rw [← h.2]
      simp
    · split at h
      · simp at h
      · split at h
        · match hc : contBytes 1 rest with
          | none => rw [hc] at h; simp at h
          | some cr =>
            rw [hc] at h
            simp only [Option.some_bind, Option.some.injEq, Prod.mk.injEq] at h
            have := contBytes_length_le 1 rest cr.1 cr.2 (by rw [hc])
            rw [← h.2]
            simp only [List.length_cons]
            omega
        · split at h
          · match hc : contBytes 2 rest with
            | none => rw [hc] at h; simp at h
            | some cr =>
              rw [hc] at h
              simp only [Option.some_bind] at h
              split at h
              · simp only [Option.some.injEq, Prod.mk.injEq] at h
                have := contBytes_length_le 2 rest cr.1 cr.2 (by rw [hc])
                rw [← h.2]
                simp only [List.length_cons]
                omega
              · simp at h
          · split at h
            · match hc : contBytes 3 rest with
              | none => rw [hc] at h; simp at h
              | some cr =>
                rw [hc] at h
                simp only [Option.some_bind] at h
                split at h
                · simp only [Option.some.injEq, Prod.mk.injEq] at h
                  have := contBytes_length_le 3 rest cr.1 cr.2 (by rw [hc])
                  rw [← h.2]
                  simp only [List.length_cons]
                  omega
                · simp at h
            · simp at h

theorem utf8DecodeFuel_congr (fuel1 : Nat) : ∀ (fuel2 : Nat) (l : List Nat),
    l.length ≤ fuel1 → l.length ≤ fuel2 →
    utf8DecodeFuel fuel1 l = utf8DecodeFuel fuel2 l := by
  induction fuel1 with
  | zero =>
    intro fuel2 l h1 _
    have : l = [] := List.eq_nil_of_length_eq_zero (Nat.le_zero.mp h1)
    subst this
    cases fuel2 <;> rfl
  | succ n ih =>
    intro fuel2 l h1 h2
    match l with
    | [] => cases fuel2 <;> rfl
    | b0 :: rest =>
      match fuel2 with
      | 0 => simp at h2
      | k + 1 =>
        rw [utf8DecodeFuel, utf8DecodeFuel]
        match hcr : utf8DecodeOne (b0 :: rest) with
        | none => rfl
        | some cr =>
          dsimp only
          have hlt := utf8DecodeOne_length_lt (b0 :: rest) cr.1 cr.2
            (by rw [hcr])
          simp only [List.length_cons] at hlt h1 h2
          rw [ih k cr.2 (by omega) (by omega)]

theorem utf8Decode_cons (b0 : Nat) (rest : List Nat) :
    utf8Decode (b0 :: rest) =
      match utf8DecodeOne (b0 :: rest) with
      | none => none
      | some cr => (utf8Decode cr.2).map (cr.1 :: ·) := by
  rw [utf8Decode, List.length_cons, utf8DecodeFuel]
  match hcr : utf8DecodeOne (b0 :: rest) with
  | none => rfl
  | some cr =>
    dsimp only
    have hlt := utf8DecodeOne_length_lt (b0 :: rest) cr.1 cr.2 (by rw [hcr])
    simp only [List.length_cons] at hlt
    rw [utf8Decode, utf8DecodeFuel_congr rest.length cr.2.length cr.2
      (by omega) (by omega)]


theorem utf8EncodeCp_ne_nil (c : Nat) : utf8EncodeCp c ≠ [] := by
  unfold utf8EncodeCp
  split
  · simp
  · split
    · simp
    · split
      · simp
      · simp

theorem utf8DecodeOne_encodeCp (c : Nat) (h : isValidCp c = true)
    (bs : List Nat) : utf8DecodeOne (utf8EncodeCp c ++ bs) = some (c, bs) := by
  simp only [isValidCp, Bool.or_eq_true, decide_eq_true_eq,
    Bool.and_eq_true] at h
  by_cases h1 : c < 0x80
  · rw [utf8EncodeCp, if_pos h1, List.cons_append, List.nil_append,
      utf8DecodeOne, if_pos h1]
  · by_cases h2 : c < 0x800
    · have hcont : isCont (0x80 + c % 64) = true := by
        simp only [isCont, Bool.and_eq_true, decide_eq_true_eq]
        omega
      rw [utf8EncodeCp, if_neg h1, if_pos h2, List.cons_append,
        List.cons_append, List.nil_append, utf8DecodeOne,
        if_neg (by omega), if_neg (by omega), if_pos (by omega)]
      simp only [contBytes, hcont, if_pos, Option.map_some', Option.some_bind,
        pow_zero, Option.some.injEq, Prod.mk.injEq, and_true]
      omega
    · by_cases h3 : c < 0x10000
      · have hcont1 : isCont (0x80 + c / 64 % 64) = true := by
          simp only [isCont, Bool.and_eq_true, decide_eq_true_eq]
          omega
        have hcont2 : isCont (0x80 + c % 64) = true := by
          simp only [isCont, Bool.and_eq_true, decide_eq_true_eq]
          omega
        rw [utf8EncodeCp, if_neg h1, if_neg h2, if_pos h3, List.cons_append,
          List.cons_append, List.cons_append, List.nil_append, utf8DecodeOne,
          if_neg (by omega), if_neg (by omega), if_neg (by omega),
          if_pos (by omega)]
        simp only [contBytes, hcont1, hcont2, if_pos, Option.map_some',
          Option.some_bind, pow_zero, pow_one]
        rw [if_pos]
        · simp only [Option.some.injEq, Prod.mk.injEq, and_true]
          omega
        · simp only [Bool.and_eq_true, decide_eq_true_eq, Bool.or_eq_true]
          omega
      · have hcont1 : isCont (0x80 + c / 4096 % 64) = true := by
          simp only [isCont, Bool.and_eq_true, decide_eq_true_eq]
          omega
        have hcont2 : isCont (0x80 + c / 64 % 64) = true := by
          simp only [isCont, Bool.and_eq_true, decide_eq_true_eq]
          omega
        have hcont3 : isCont (0x80 + c % 64) = true := by
          simp only [isCont, Bool.and_eq_true, decide_eq_true_eq]
          omega
        rw [utf8EncodeCp, if_neg h1, if_neg h2, if_neg h3, List.cons_append,
          List.cons_append, List.cons_append, List.cons_append,
          List.nil_append, utf8DecodeOne, if_neg (by omega),
          if_neg (by omega), if_neg (by omega), if_neg (by omega),
          if_pos (by omega)]
        have hp2 : (64 : Nat) ^ 2 = 4096 := by norm_num
        simp only [contBytes, hcont1, hcont2, hcont3, if_pos, Option.map_some',
          Option.some_bind, pow_zero, pow_one, hp2]
        rw [if_pos]
        · simp only [Option.some.injEq, Prod.mk.injEq, and_true]
          omega
        · simp only [Bool.and_eq_true, decide_eq_true_eq]
          omega

theorem utf8Decode_encodeCp (c : Nat) (h : isValidCp c = true) (bs : List Nat) :
    utf8Decode (utf8EncodeCp c ++ bs) = (utf8Decode bs).map (c :: ·) := by
  have hone := utf8DecodeOne_encodeCp c h bs
  rcases he : utf8EncodeCp c ++ bs with _ | ⟨a, t⟩
  · exact absurd (List.append_eq_nil.mp he).1 (utf8EncodeCp_ne_nil c)
  · rw [he] at hone
    rw [utf8Decode_cons, hone]

theorem utf8Decode_encode (s : Path) (h : ∀ c ∈ s, isValidCp c = true) :
    utf8Decode (utf8Encode s) = some s := by
  induction s with
  | nil =>
    rfl
  | cons c cs ih =>
    rw [utf8Encode, List.flatMap_cons, utf8Decode_encodeCp c
      (h c (List.mem_cons_self c cs)) (cs.flatMap utf8EncodeCp)]
    rw [← utf8Encode, ih (fun x hx => h x (List.mem_cons_of_mem c hx))]
    rfl

theorem utf8Encode_replicate_zero (k : Nat) :
    utf8Encode (List.replicate k 0) = List.replicate k 0 := by
  induction k with
  | zero => rfl
  | succ n ih =>
    rw [List.replicate_succ, utf8Encode, List.flatMap_cons, ← utf8Encode, ih]
    rfl

theorem utf8Encode_append (s t : Path) :
    utf8Encode (s ++ t) = utf8Encode s ++ utf8Encode t := by
  simp [utf8Encode]

theorem dropWhile_replicate_zero_append (k : Nat) (l : List Nat) :
    List.dropWhile (· == 0) (List.replicate k 0 ++ l) =
      List.dropWhile (· == 0) l := by
  induction k with
  | zero => rfl
  | succ n ih =>
    rw [List.replicate_succ, List.cons_append, List.dropWhile_cons]
    simp only [beq_self_eq_true, if_true]
    exact ih

theorem trimTrailingNuls_append_replicate (p : Path) (k : Nat) :
    trimTrailingNuls (p ++ List.replicate k 0) = trimTrailingNuls p := by
  simp only [trimTrailingNuls, List.reverse_append, List.reverse_replicate]
  rw [dropWhile_replicate_zero_append]

theorem trimTrailingNuls_eq_self (p : Path) (h : p.getLast? ≠ some 0) :
    trimTrailingNuls p = p := by
  rcases hpr : p.reverse with _ | ⟨a, t⟩
  · have : p = [] := List.reverse_eq_nil_iff.mp hpr
    simp [this, trimTrailingNuls]
  · have ha : p.getLast? = some a := by
      rw [← List.head?_reverse, hpr]
      rfl
    have hane : (a == 0) = false := by
      simp only [beq_eq_false_iff_ne, ne_eq]
      intro hc
      exact h (hc ▸ ha)
    simp only [trimTrailingNuls, hpr, List.dropWhile_cons, hane,
      Bool.false_eq_true, if_false]
    rw [← hpr, List.reverse_reverse]

/-! ## Claim C9 -/

/-- Claim C9: for every path string `p` (as its scalar-value sequence)
that does not end with a NUL character, decoding the bytes produced by
`normalized_path_bytes p` the way `RawFileEntry::path` does — UTF-8
conversion followed by stripping trailing NUL characters — yields `p`
again, and the length of `normalized_path_bytes p` is the least
multiple of 4 greater than or equal to the UTF-8 byte length of `p`. -/
theorem claim_C9 (p : Path) (hval : ∀ c ∈ p, isValidCp c = true)
    (hlast : p.getLast? ≠ some 0) :
    (RawFileEntry.mk (normalized_path_bytes p).length
        (normalized_path_bytes p) 0 0 []).path = .ok p ∧
    (normalized_path_bytes p).length % 4 = 0 ∧
    (utf8Encode p).length ≤ (normalized_path_bytes p).length ∧
    ∀ k, k % 4 = 0 → (utf8Encode p).length ≤ k →
      (normalized_path_bytes p).length ≤ k := by
  have henc : normalized_path_bytes p =
      utf8Encode (p ++ List.replicate ((4 - (utf8Encode p).length % 4) % 4) 0) := by
    rw [utf8Encode_append, utf8Encode_replicate_zero, normalized_path_bytes]
  have hdec : utf8Decode (normalized_path_bytes p) =
      some (p ++ List.replicate ((4 - (utf8Encode p).length % 4) % 4) 0) := by
    rw [henc]
    apply utf8Decode_encode
    intro c hc
    rcases List.mem_append.mp hc with h | h
    · exact hval c h
    · have : c = 0 := List.eq_of_mem_replicate h
      subst this
      decide
  refine ⟨?_, ?_, ?_, ?_⟩
  · show (match utf8Decode (normalized_path_bytes p) with
      | some s => Except.ok (trimTrailingNuls s)
      | none => Except.error "invalid UTF-8 in entry path") = Except.ok p
    rw [hdec]
    dsimp only
    rw [trimTrailingNuls_append_replicate, trimTrailingNuls_eq_self p hlast]
  · simp only [normalized_path_bytes, List.length_append,
      List.length_replicate]
    omega
  · simp only [normalized_path_bytes, List.length_append,
      List.length_replicate]
    omega
  · intro k h1 h2
    simp only [normalized_path_bytes, List.length_append,
      List.length_replicate]
    omega

/-- Witness for C9 at the concrete one-character path "a". -/
theorem claim_C9_witness :
    (RawFileEntry.mk (normalized_path_bytes [97]).length
        (normalized_path_bytes [97]) 0 0 []).path = .ok [97] ∧
    (normalized_path_bytes [97]).length % 4 = 0 :=
  ⟨(claim_C9 [97] (by decide) (by decide)).1,
   (claim_C9 [97] (by decide) (by decide)).2.1⟩

/-! ## Claims C3 and C4 -/

theorem hasDupPath_iff (ps : List Path) : hasDupPath ps = true ↔ ¬ ps.Nodup := by
  induction ps with
  | nil => simp [hasDupPath]
  | cons p t ih =>
    simp only [hasDupPath, Bool.or_eq_true, ih, List.nodup_cons,
      List.elem_iff]
    tauto

/-- Claim C3: on a nonempty index, `plan_table` returns `table_start`
equal to the smallest table offset in the index, `table_end_after` equal
to `table_start` plus the summed serialized record sizes
(4 + path_len + 8 + 8 + 16) of all existing entries plus those of the
additions (with the normalized, NUL-padded path byte length), and
`next_new_table_offset` equal to `table_start` plus the existing
entries' total; on an empty index it returns an error. -/
theorem claim_C3 :
    (∀ adds, plan_table ([] : EntryMap) adds = .error "empty entry list") ∧
    ∀ (m : EntryMap) (adds : List (Path × List Nat)),
      m ≠ [] →
      m.Sorted (fun a b => a.table_offset ≤ b.table_offset) →
      ∃ plan, plan_table m adds = .ok plan ∧
        plan.table_start ∈ m.map (fun r => r.table_offset) ∧
        (∀ r ∈ m, plan.table_start ≤ r.table_offset) ∧
        plan.table_end_after = plan.table_start +
          (m.map (fun r => 4 + r.entry.path_len + 8 + 8 + 16)).sum +
          (adds.map
            (fun pd => 4 + (normalized_path_bytes pd.1).length + 8 + 8 + 16)).sum ∧
        plan.next_new_table_offset = plan.table_start +
          (m.map (fun r => 4 + r.entry.path_len + 8 + 8 + 16)).sum := by
  constructor
  · intro adds
    rfl
  · intro m adds hne hs
    match m with
    | [] => exact absurd rfl hne
    | e0 :: rest =>
      refine ⟨_, rfl, ?_, ?_, ?_, ?_⟩
      · exact List.mem_map_of_mem _ (List.mem_cons_self e0 rest)
      · intro r hr
        rcases List.mem_cons.mp hr with h | h
        · exact h ▸ Nat.le_refl _
        · exact (List.sorted_cons.mp hs).1 r h
      · rfl
      · rfl

/-- Witness for C3 on the concrete two-entry map of the test archive
with one addition. -/
theorem claim_C3_witness :
    plan_table ([] : EntryMap) [([99], [7])] = .error "empty entry list" ∧
    ∃ plan, plan_table mA [([99], [7])] = .ok plan ∧
      plan.table_start ∈ mA.map (fun r => r.table_offset) ∧
      (∀ r ∈ mA, plan.table_start ≤ r.table_offset) ∧
      plan.table_end_after = plan.table_start +
        (mA.map (fun r => 4 + r.entry.path_len + 8 + 8 + 16)).sum +
        ([([99], [7])].map
          (fun pd : Path × List Nat =>
            4 + (normalized_path_bytes pd.1).length + 8 + 8 + 16)).sum ∧
      plan.next_new_table_offset = plan.table_start +
        (mA.map (fun r => 4 + r.entry.path_len + 8 + 8 + 16)).sum :=
  ⟨claim_C3.1 [([99], [7])],
   claim_C3.2 mA [([99], [7])] (by decide) (by decide)⟩

/-- Claim C4: a batch containing the same path twice makes
`replace_files_in_pck` return the duplicate-path error before any file
mutation; the file carried alongside the error is the input file,
bit for bit. -/
theorem claim_C4 (md5c : List Nat → List Nat) (f : FileBytes)
    (header : Header) (eo : List (Path × Nat))
    (files : List (Path × List Nat))
    (hdup : ¬ (files.map Prod.fst).Nodup) :
    replace_files_in_pck md5c f header eo files =
      .error ("duplicate path", f) := by
  have hb : hasDupPath (files.map Prod.fst) = true :=
    (hasDupPath_iff _).mpr hdup
  have hie : files.isEmpty = false := by
    cases files with
    | nil => simp at hdup
    | cons a t => rfl
  rw [replace_files_in_pck, hie]
  simp only [Bool.false_eq_true, if_false, hb, if_true]

/-- Witness for C4: the concrete batch that names path "c" twice is
rejected and the test archive is untouched. -/
theorem claim_C4_witness :
    replace_files_in_pck md5z fA hdrA eoA [([99], [7]), ([99], [8])] =
      .error ("duplicate path", fA) :=
  claim_C4 md5z fA hdrA eoA [([99], [7]), ([99], [8])] (by decide)

/-! ## Parser lemmas for the index (`read_header_and_index`) -/

theorem rawSeq_length (f : FileBytes) : ∀ (n pos : Nat) (rs : List (Nat × RawFileEntry)),
    rawSeq f pos n = .ok rs → rs.length = n := by
  intro n
  induction n with
  | zero =>
    intro pos rs h
    simp only [rawSeq, Except.ok.injEq] at h
    rw [← h]
    rfl
  | succ k ih =>
    intro pos rs h
    rw [rawSeq] at h
    match hp : parseEntry f pos with
    | .error e => rw [hp] at h; simp at h
    | .ok (e1, nx) =>
      rw [hp] at h
      dsimp only at h
      match hr : rawSeq f nx k with
      | .error e => rw [hr] at h; simp [Except.map] at h
      | .ok rest =>
        rw [hr] at h
        simp only [Except.map, Except.ok.injEq] at h
        rw [← h]
        simp only [List.length_cons]
        rw [ih nx rest hr]

theorem rawSeq_mem_parse (f : FileBytes) : ∀ (n pos : Nat)
    (rs : List (Nat × RawFileEntry)) (oe : Nat × RawFileEntry),
    rawSeq f pos n = .ok rs → oe ∈ rs →
    ∃ nx, parseEntry f oe.1 = .ok (oe.2, nx) := by
  intro n
  induction n with
  | zero =>
    intro pos rs oe h hm
    simp only [rawSeq, Except.ok.injEq] at h
    rw [← h] at hm
    simp at hm
  | succ k ih =>
    intro pos rs oe h hm
    rw [rawSeq] at h
    match hp : parseEntry f pos with
    | .error e => rw [hp] at h; simp at h
    | .ok (e1, nx) =>
      rw [hp] at h
      dsimp only at h
      match hr : rawSeq f nx k with
      | .error e => rw [hr] at h; simp [Except.map] at h
      | .ok rest =>
        rw [hr] at h
        simp only [Except.map, Except.ok.injEq] at h
        rw [← h] at hm
        rcases List.mem_cons.mp hm with hh | hh
        · subst hh
          exact ⟨nx, hp⟩
        · exact ih nx rest oe hr hh

theorem readEntries_ok_of (f : FileBytes) : ∀ (n pos : Nat)
    (rs : List (Nat × RawFileEntry)),
    rawSeq f pos n = .ok rs →
    (∀ r ∈ rs, utf8Decode (r.2).path_bytes ≠ none) →
    ∀ acc, readEntries f pos n acc = .ok (foldInsert acc (pairsOf rs)) := by
  intro n
  induction n with
  | zero =>
    intro pos rs h _ acc
    simp only [rawSeq, Except.ok.injEq] at h
    rw [← h]
    rfl
  | succ k ih =>
    intro pos rs h hdec acc
    rw [rawSeq] at h
    match hp : parseEntry f pos with
    | .error e => rw [hp] at h; simp at h
    | .ok (e1, nx) =>
      rw [hp] at h
      dsimp only at h
      match hr : rawSeq f nx k with
      | .error e => rw [hr] at h; simp [Except.map] at h
      | .ok rest =>
        rw [hr] at h
        simp only [Except.map, Except.ok.injEq] at h
        rw [readEntries, hp]
        dsimp only
        have hd0 : utf8Decode e1.path_bytes ≠ none := by
          have := hdec (pos, e1) (by rw [← h]; exact List.mem_cons_self _ _)
          exact this
        match hu : utf8Decode e1.path_bytes with
        | none => exact absurd hu hd0
        | some s =>
          have hpath : e1.path = .ok (trimTrailingNuls s) := by
            rw [RawFileEntry.path, hu]
          rw [hpath]
          dsimp only
          have hrest : ∀ r ∈ rest, utf8Decode (r.2).path_bytes ≠ none := by
            intro r hm
            exact hdec r (by rw [← h]; exact List.mem_cons_of_mem _ hm)
          rw [ih nx rest hr hrest]
          rw [← h]
          have hpd : decodePathD e1 = trimTrailingNuls s := by
            rw [decodePathD, hu]
          simp only [pairsOf, List.map_cons, foldInsert, List.foldl_cons, hpd]

theorem readEntries_err_of_decode (f : FileBytes) : ∀ (n pos : Nat)
    (rs : List (Nat × RawFileEntry)),
    rawSeq f pos n = .ok rs →
    (∃ r ∈ rs, utf8Decode (r.2).path_bytes = none) →
    ∀ acc, ∃ e2, readEntries f pos n acc = .error e2 := by
  intro n
  induction n with
  | zero =>
    intro pos rs h hex acc
    simp only [rawSeq, Except.ok.injEq] at h
    rcases hex with ⟨r, hm, _⟩
    rw [← h] at hm
    simp at hm
  | succ k ih =>
    intro pos rs h hex acc
    rw [rawSeq] at h
    match hp : parseEntry f pos with
    | .error e => rw [hp] at h; simp at h
    | .ok (e1, nx) =>
      rw [hp] at h
      dsimp only at h
      match hr : rawSeq f nx k with
      | .error e => rw [hr] at h; simp [Except.map] at h
      | .ok rest =>
        rw [hr] at h
        simp only [Except.map, Except.ok.injEq] at h
        rw [readEntries, hp]
        dsimp only
        match hu : utf8Decode e1.path_bytes with
        | none =>
          have hpath : e1.path = .error "invalid UTF-8 in entry path" := by
            rw [RawFileEntry.path, hu]
          rw [hpath]
          exact ⟨"invalid UTF-8 in entry path", rfl⟩
        | some s =>
          have hpath : e1.path = .ok (trimTrailingNuls s) := by
            rw [RawFileEntry.path, hu]
          rw [hpath]
          dsimp only
          rcases hex with ⟨r, hm, hnone⟩
          rw [← h] at hm
          rcases List.mem_cons.mp hm with hh | hh
          · rw [hh] at hnone
            rw [hnone] at hu
            simp at hu
          · exact ih nx rest hr ⟨r, hh, hnone⟩ _

theorem readEntries_err_of_raw (f : FileBytes) : ∀ (n pos : Nat) (e : String),
    rawSeq f pos n = .error e →
    ∀ acc, ∃ e2, readEntries f pos n acc = .error e2 := by
  intro n
  induction n with
  | zero =>
    intro pos e h acc
    simp only [rawSeq] at h
    exact Except.noConfusion h
  | succ k ih =>
    intro pos e h acc
    rw [rawSeq] at h
    match hp : parseEntry f pos with
    | .error e1 =>
      rw [readEntries, hp]
      exact ⟨e1, rfl⟩
    | .ok (e1, nx) =>
      rw [hp] at h
      dsimp only at h
      match hr : rawSeq f nx k with
      | .error er =>
        rw [readEntries, hp]
        dsimp only
        match hu : utf8Decode e1.path_bytes with
        | none =>
          have hpath : e1.path = .error "invalid UTF-8 in entry path" := by
            rw [RawFileEntry.path, hu]
          rw [hpath]
          exact ⟨"invalid UTF-8 in entry path", rfl⟩
        | some s =>
          have hpath : e1.path = .ok (trimTrailingNuls s) := by
            rw [RawFileEntry.path, hu]
          rw [hpath]
          dsimp only
          exact ih nx er hr _
      | .ok rest => rw [hr] at h; simp [Except.map] at h

theorem readEntries_ok_inv (f : FileBytes) : ∀ (n pos : Nat)
    (acc idx : List (Path × Nat)),
    readEntries f pos n acc = .ok idx →
    ∃ rs, rawSeq f pos n = .ok rs ∧
      (∀ r ∈ rs, utf8Decode (r.2).path_bytes ≠ none) ∧
      idx = foldInsert acc (pairsOf rs) := by
  intro n
  induction n with
  | zero =>
    intro pos acc idx h
    simp only [readEntries, Except.ok.injEq] at h
    exact ⟨[], rfl, by simp, by rw [← h]; rfl⟩
  | succ k ih =>
    intro pos acc idx h
    rw [readEntries] at h
    match hp : parseEntry f pos with
    | .error e => rw [hp] at h; simp at h
    | .ok (e1, nx) =>
      rw [hp] at h
      dsimp only at h
      match hu : utf8Decode e1.path_bytes with
      | none =>
        have hpath : e1.path = .error "invalid UTF-8 in entry path" := by
          rw [RawFileEntry.path, hu]
        rw [hpath] at h
        simp at h
      | some s =>
        have hpath : e1.path = .ok (trimTrailingNuls s) := by
          rw [RawFileEntry.path, hu]
        rw [hpath] at h
        dsimp only at h
        rcases ih nx _ idx h with ⟨rest, hr, hdec, hidx⟩
        refine ⟨(pos, e1) :: rest, ?_, ?_, ?_⟩
        · rw [rawSeq, hp]
          dsimp only
          rw [hr]
          rfl
        · intro r hm
          rcases List.mem_cons.mp hm with hh | hh
          · rw [hh]
            simp only
            rw [hu]
            simp
          · exact hdec r hh
        · rw [hidx]
          have hpd : decodePathD e1 = trimTrailingNuls s := by
            rw [decodePathD, hu]
          simp only [pairsOf, List.map_cons, foldInsert, List.foldl_cons, hpd]


/-! ## Index-map (`insertA`, `foldInsert`) lemmas -/

theorem insertA_mem {m : List (Path × Nat)} {k p : Path} {v w : Nat}
    (h : (p, v) ∈ insertA m k w) : (p, v) ∈ m ∨ (p = k ∧ v = w) := by
  rcases List.mem_append.mp h with h1 | h1
  · exact Or.inl (List.mem_of_mem_filter h1)
  · right
    simp only [List.mem_singleton, Prod.mk.injEq] at h1
    exact h1

theorem keys_insertA_iff (m : List (Path × Nat)) (k p : Path) (w : Nat) :
    p ∈ (insertA m k w).map Prod.fst ↔ p ∈ m.map Prod.fst ∨ p = k := by
  simp only [insertA, List.map_append, List.mem_append, List.mem_map,
    List.mem_filter, decide_eq_true_eq, List.map_cons, List.map_nil,
    List.mem_singleton]
  constructor
  · rintro (⟨pr, ⟨hm, _⟩, hp⟩ | h)
    · exact Or.inl ⟨pr, hm, hp⟩
    · exact Or.inr h
  · rintro (⟨pr, hm, hp⟩ | h)
    · by_cases hk : p = k
      · exact Or.inr hk
      · exact Or.inl ⟨pr, ⟨hm, fun hc => hk (by rw [← hp, hc])⟩, hp⟩
    · exact Or.inr h

theorem nodup_keys_insertA (m : List (Path × Nat)) (k : Path) (w : Nat)
    (h : (m.map Prod.fst).Nodup) : ((insertA m k w).map Prod.fst).Nodup := by
  rw [insertA, List.map_append, List.nodup_append]
  refine ⟨?_, by simp, ?_⟩
  · exact ((List.filter_sublist m).map Prod.fst).nodup h
  · intro p hp hq
    simp only [List.map_cons, List.map_nil, List.mem_singleton] at hq
    subst hq
    rcases List.mem_map.mp hp with ⟨pr, hm, hp2⟩
    have := (List.mem_filter.mp hm).2
    simp only [decide_eq_true_eq] at this
    exact this hp2

theorem lookupA_append (l1 l2 : List (Path × Nat)) (p : Path) :
    lookupA (l1 ++ l2) p =
      match lookupA l1 p with
      | some v => some v
      | none => lookupA l2 p := by
  induction l1 with
  | nil => rfl
  | cons pr t ih =>
    obtain ⟨k, v⟩ := pr
    rw [List.cons_append, lookupA, lookupA]
    by_cases hk : k = p
    · rw [if_pos hk, if_pos hk]
    · rw [if_neg hk, if_neg hk, ih]

theorem lookupA_eq_none (l : List (Path × Nat)) (p : Path)
    (h : p ∉ l.map Prod.fst) : lookupA l p = none := by
  induction l with
  | nil => rfl
  | cons pr t ih =>
    obtain ⟨k, v⟩ := pr
    simp only [List.map_cons, List.mem_cons, not_or] at h
    rw [lookupA, if_neg (fun hc => h.1 hc.symm)]
    exact ih h.2

theorem lookupA_filter_ne (m : List (Path × Nat)) (k p : Path) (h : p ≠ k) :
    lookupA (m.filter (fun kv => kv.1 ≠ k)) p = lookupA m p := by
  induction m with
  | nil => rfl
  | cons pr t ih =>
    obtain ⟨k1, v1⟩ := pr
    by_cases h1 : k1 = k
    · subst h1
      rw [List.filter_cons_of_neg (by simp), lookupA,
        if_neg (fun hc => h hc.symm)]
      exact ih
    · rw [List.filter_cons_of_pos (by simpa using h1), lookupA, lookupA]
      by_cases h2 : k1 = p
      · rw [if_pos h2, if_pos h2]
      · rw [if_neg h2, if_neg h2]
        exact ih

theorem lookupA_insertA_self (m : List (Path × Nat)) (k : Path) (w : Nat) :
    lookupA (insertA m k w) k = some w := by
  rw [insertA, lookupA_append]
  have h1 : lookupA (m.filter (fun kv => kv.1 ≠ k)) k = none := by
    apply lookupA_eq_none
    intro hc
    rcases List.mem_map.mp hc with ⟨pr, hm, hp⟩
    have := (List.mem_filter.mp hm).2
    simp only [decide_eq_true_eq] at this
    exact this hp
  rw [h1]
  simp [lookupA]

theorem lookupA_insertA_ne (m : List (Path × Nat)) (k p : Path) (w : Nat)
    (h : p ≠ k) : lookupA (insertA m k w) p = lookupA m p := by
  rw [insertA, lookupA_append, lookupA_filter_ne m k p h]
  match hv : lookupA m p with
  | some v => rfl
  | none =>
    dsimp only
    rw [lookupA, if_neg (fun hc => h hc.symm)]
    rfl

theorem foldInsert_mem (prs : List (Path × Nat)) :
    ∀ (acc : List (Path × Nat)) (p : Path) (v : Nat),
    (p, v) ∈ foldInsert acc prs → (p, v) ∈ acc ∨ (p, v) ∈ prs := by
  induction prs with
  | nil =>
    intro acc p v h
    exact Or.inl h
  | cons pr t ih =>
    intro acc p v h
    rw [foldInsert, List.foldl_cons] at h
    rcases ih (insertA acc pr.1 pr.2) p v h with h1 | h1
    · rcases insertA_mem h1 with h2 | h2
      · exact Or.inl h2
      · right
        rw [h2.1, h2.2]
        exact List.mem_cons_self _ _
    · exact Or.inr (List.mem_cons_of_mem _ h1)

theorem foldInsert_keys_iff (prs : List (Path × Nat)) :
    ∀ (acc : List (Path × Nat)) (p : Path),
    (p ∈ (foldInsert acc prs).map Prod.fst ↔
      p ∈ acc.map Prod.fst ∨ p ∈ prs.map Prod.fst) := by
  induction prs with
  | nil =>
    intro acc p
    simp [foldInsert]
  | cons pr t ih =>
    intro acc p
    rw [foldInsert, List.foldl_cons]
    rw [show List.foldl (fun m x => insertA m x.1 x.2) (insertA acc pr.1 pr.2) t =
      foldInsert (insertA acc pr.1 pr.2) t from rfl]
    rw [ih, keys_insertA_iff]
    simp only [List.map_cons, List.mem_cons]
    tauto

theorem foldInsert_nodup_keys (prs : List (Path × Nat)) :
    ∀ (acc : List (Path × Nat)),
    (acc.map Prod.fst).Nodup → ((foldInsert acc prs).map Prod.fst).Nodup := by
  induction prs with
  | nil =>
    intro acc h
    exact h
  | cons pr t ih =>
    intro acc h
    rw [foldInsert, List.foldl_cons]
    exact ih (insertA acc pr.1 pr.2) (nodup_keys_insertA acc pr.1 pr.2 h)

theorem foldInsert_lookup (prs : List (Path × Nat)) :
    ∀ (acc : List (Path × Nat)) (p : Path),
    lookupA (foldInsert acc prs) p =
      match lastOffsetOf prs p with
      | some w => some w
      | none => lookupA acc p := by
  induction prs with
  | nil =>
    intro acc p
    rfl
  | cons pr t ih =>
    intro acc p
    obtain ⟨k, v⟩ := pr
    rw [foldInsert, List.foldl_cons]
    rw [show List.foldl (fun m x => insertA m x.1 x.2) (insertA acc k v) t =
      foldInsert (insertA acc k v) t from rfl]
    rw [ih, lastOffsetOf]
    match hl : lastOffsetOf t p with
    | some w => rfl
    | none =>
      dsimp only
      by_cases hk : k = p
      · rw [if_pos hk, hk, lookupA_insertA_self]
      · rw [if_neg hk, lookupA_insertA_ne acc k p v (fun hc => hk hc.symm)]



/-! ## Header and read inversion lemmas -/

theorem isErr_eq_true_iff {α : Type} (x : Except String α) :
    isErr x = true ↔ ∀ a, x ≠ .ok a := by
  cases x <;> simp [isErr]

theorem parseHeader_ok_inv (f : FileBytes) (hh : Header)
    (hp : parseHeader f = .ok hh) :
    readBytes f 0 4 = some gdpcMagic ∧ readU32 f 4 = some 1 ∧
    readU32 f 84 = some hh.file_count ∧ 0 < hh.file_count := by
  rw [parseHeader] at hp
  split at hp
  · exact Except.noConfusion hp
  rename_i magic hb
  split at hp
  · exact Except.noConfusion hp
  rename_i hmg
  push_neg at hmg
  split at hp
  · rename_i ver gmaj gmin gpat res fc h4 h8 h12 h16 h20 h84
    split at hp
    · exact Except.noConfusion hp
    rename_i hv
    push_neg at hv
    split at hp
    · exact Except.noConfusion hp
    rename_i hf
    have hinj := Except.ok.inj hp
    refine ⟨hmg ▸ hb, hv ▸ h4, ?_, ?_⟩
    · rw [← hinj]
      exact h84
    · rw [← hinj]
      exact Nat.pos_of_ne_zero hf
  · exact Except.noConfusion hp

theorem read_ok_inv (f : FileBytes) (hh : Header) (idx : List (Path × Nat))
    (hr : read_header_and_index f = .ok (hh, idx)) :
    parseHeader f = .ok hh ∧
    readEntries f headerSize hh.file_count [] = .ok idx := by
  rw [read_header_and_index] at hr
  split at hr
  · exact Except.noConfusion hr
  rename_i h1 hph
  split at hr
  · exact Except.noConfusion hr
  rename_i idx1 hre
  have hinj := Except.ok.inj hr
  rw [Prod.mk.injEq] at hinj
  obtain ⟨hh1, hi1⟩ := hinj
  subst hh1
  subst hi1
  exact ⟨hph, hre⟩

/-! ## Claims C7 and C10 -/

/-- Claim C7: `read_header_and_index` fails on every input whose first
four bytes are not `GDPC`, whose version field is not 1, or whose
`file_count` field is 0, and also whenever any of the `file_count`
sequentially parsed records carries path bytes that are not valid
UTF-8; on success it returns the decoded header and a map sending each
record's decoded path (trailing NULs stripped) to the byte offset of
the record inside the entry table, not to its data offset. -/
theorem claim_C7 :
    (∀ f : FileBytes, readBytes f 0 4 ≠ some gdpcMagic →
      isErr (read_header_and_index f) = true) ∧
    (∀ f : FileBytes, readU32 f 4 ≠ some 1 →
      isErr (read_header_and_index f) = true) ∧
    (∀ f : FileBytes, readU32 f 84 = some 0 →
      isErr (read_header_and_index f) = true) ∧
    (∀ (f : FileBytes) (hh : Header) (rs : List (Nat × RawFileEntry)),
      parseHeader f = .ok hh → rawSeq f headerSize hh.file_count = .ok rs →
      (∃ r ∈ rs, utf8Decode (r.2).path_bytes = none) →
      isErr (read_header_and_index f) = true) ∧
    (∀ (f : FileBytes) (hh : Header) (idx : List (Path × Nat)),
      read_header_and_index f = .ok (hh, idx) →
      parseHeader f = .ok hh ∧
      (∀ pr ∈ idx, ∃ e nx, parseEntry f pr.2 = .ok (e, nx) ∧
        e.path = .ok pr.1) ∧
      ∀ rs, rawSeq f headerSize hh.file_count = .ok rs →
        ∀ r ∈ rs, (r.2).path = .ok (decodePathD r.2) ∧
          ∃ v, (decodePathD r.2, v) ∈ idx) := by
  refine ⟨?_, ?_, ?_, ?_, ?_⟩
  · intro f hm
    rw [isErr_eq_true_iff]
    rintro ⟨hh, idx⟩ hc
    exact hm (parseHeader_ok_inv f hh (read_ok_inv f hh idx hc).1).1
  · intro f hm
    rw [isErr_eq_true_iff]
    rintro ⟨hh, idx⟩ hc
    exact hm (parseHeader_ok_inv f hh (read_ok_inv f hh idx hc).1).2.1
  · intro f hm
    rw [isErr_eq_true_iff]
    rintro ⟨hh, idx⟩ hc
    rcases parseHeader_ok_inv f hh (read_ok_inv f hh idx hc).1
      with ⟨-, -, h84, hpos⟩
    rw [hm] at h84
    have : hh.file_count = 0 := (Option.some.inj h84).symm
    omega
  · intro f hh rs hph hraw hex
    rw [isErr_eq_true_iff]
    rintro ⟨hh2, idx⟩ hc
    rcases read_ok_inv f hh2 idx hc with ⟨hph2, hre⟩
    have hh2e : hh = hh2 := by
      rw [hph] at hph2
      exact Except.ok.inj hph2
    rw [← hh2e] at hre
    rcases readEntries_err_of_decode f hh.file_count headerSize rs hraw hex []
      with ⟨e2, herr⟩
    rw [herr] at hre
    exact Except.noConfusion hre
  · intro f hh idx hc
    rcases read_ok_inv f hh idx hc with ⟨hph, hre⟩
    rcases readEntries_ok_inv f hh.file_count headerSize [] idx hre
      with ⟨rs0, hraw0, hdec0, hidx0⟩
    refine ⟨hph, ?_, ?_⟩
    · intro pr hpr
      have hpr2 : (pr.1, pr.2) ∈ idx := by
        rw [Prod.mk.eta]
        exact hpr
      rw [hidx0] at hpr2
      rcases foldInsert_mem (pairsOf rs0) [] pr.1 pr.2 hpr2 with h1 | h1
      · simp at h1
      · rcases List.mem_map.mp h1 with ⟨oe, hoe, hpair⟩
        rcases rawSeq_mem_parse f hh.file_count headerSize rs0 oe hraw0 hoe
          with ⟨nx, hpe⟩
        have ho1 : oe.1 = pr.2 := congrArg Prod.snd hpair
        have ho2 : decodePathD oe.2 = pr.1 := congrArg Prod.fst hpair
        refine ⟨oe.2, nx, ho1 ▸ hpe, ?_⟩
        have hdo := hdec0 oe hoe
        match hu : utf8Decode (oe.2).path_bytes with
        | none => exact absurd hu hdo
        | some s =>
          rw [RawFileEntry.path, hu, ← ho2, decodePathD, hu]
    · intro rs2 hraw2
      have hrs0 : rs0 = rs2 := by
        rw [hraw0] at hraw2
        exact Except.ok.inj hraw2
      cases hrs0
      intro r hr
      have hdo := hdec0 r hr
      constructor
      · match hu : utf8Decode (r.2).path_bytes with
        | none => exact absurd hu hdo
        | some s => rw [RawFileEntry.path, hu, decodePathD, hu]
      · have hk : decodePathD r.2 ∈ (pairsOf rs0).map Prod.fst := by
          apply List.mem_map.mpr
          exact ⟨(decodePathD r.2, r.1), List.mem_map.mpr ⟨r, hr, rfl⟩, rfl⟩
        have := (foldInsert_keys_iff (pairsOf rs0) [] (decodePathD r.2)).mpr
          (Or.inr hk)
        rw [← hidx0] at this
        rcases List.mem_map.mp this with ⟨pr, hpr, hfst⟩
        exact ⟨pr.2, by rw [← hfst, Prod.mk.eta]; exact hpr⟩

set_option maxRecDepth 8000 in
/-- Witness for C7: bad magic, version 2, and zero `file_count` each
make the read fail on concrete inputs, and the two-entry test archive
is read back successfully with its header. -/
theorem claim_C7_witness :
    isErr (read_header_and_index [0, 0, 0, 0]) = true ∧
    isErr (read_header_and_index
      (serializeHeader ⟨2, 0, 0, 0, List.replicate 16 0, 1⟩)) = true ∧
    isErr (read_header_and_index
      (serializeHeader ⟨1, 0, 0, 0, List.replicate 16 0, 0⟩)) = true ∧
    parseHeader fA = .ok hdrA :=
  ⟨claim_C7.1 [0, 0, 0, 0] (by decide),
   claim_C7.2.1 (serializeHeader ⟨2, 0, 0, 0, List.replicate 16 0, 1⟩)
     (by decide),
   claim_C7.2.2.1 (serializeHeader ⟨1, 0, 0, 0, List.replicate 16 0, 0⟩)
     (by decide),
   (claim_C7.2.2.2.2 fA hdrA [([97], 88), ([98], 125)] (by rfl)).1⟩

/-- Claim C10: when the entry table holds two or more records with the
same decoded path, `read_header_and_index` still succeeds, returns a
map with fewer keys than `file_count`, and records for that path the
table offset of the last such record in table order. -/
theorem claim_C10 (f : FileBytes) (hh : Header)
    (rs : List (Nat × RawFileEntry))
    (hph : parseHeader f = .ok hh)
    (hraw : rawSeq f headerSize hh.file_count = .ok rs)
    (hdec : ∀ r ∈ rs, utf8Decode (r.2).path_bytes ≠ none)
    (hdup : ¬ ((pairsOf rs).map Prod.fst).Nodup) :
    ∃ idx, read_header_and_index f = .ok (hh, idx) ∧
      idx.length < hh.file_count ∧
      ∀ p, lookupA idx p = lastOffsetOf (pairsOf rs) p := by
  have hre := readEntries_ok_of f hh.file_count headerSize rs hraw hdec []
  refine ⟨foldInsert [] (pairsOf rs), ?_, ?_, ?_⟩
  · rw [read_header_and_index, hph]
    dsimp only
    rw [hre]
  · have hnodup : ((foldInsert [] (pairsOf rs)).map Prod.fst).Nodup :=
      foldInsert_nodup_keys (pairsOf rs) [] (by simp)
    have hperm : List.Perm ((foldInsert [] (pairsOf rs)).map Prod.fst)
        (((pairsOf rs).map Prod.fst).dedup) := by
      apply List.perm_of_nodup_nodup_toFinset_eq hnodup
        (List.nodup_dedup _)
      ext p
      simp only [List.mem_toFinset, List.mem_dedup]
      rw [foldInsert_keys_iff]
      simp
    have hlen1 : (foldInsert [] (pairsOf rs)).length =
        ((pairsOf rs).map Prod.fst).dedup.length := by
      rw [← List.length_map (foldInsert [] (pairsOf rs)) Prod.fst]
      exact hperm.length_eq
    have hsub := (List.dedup_sublist ((pairsOf rs).map Prod.fst)).length_le
    have hne : ((pairsOf rs).map Prod.fst).dedup ≠
        (pairsOf rs).map Prod.fst := by
      intro hc
      exact hdup (List.dedup_eq_self.mp hc)
    have hlt : ((pairsOf rs).map Prod.fst).dedup.length <
        ((pairsOf rs).map Prod.fst).length := by
      rcases Nat.lt_or_ge ((pairsOf rs).map Prod.fst).dedup.length
          ((pairsOf rs).map Prod.fst).length with h | h
      · exact h
      · exact absurd ((List.dedup_sublist _).eq_of_length
          (Nat.le_antisymm hsub h)) hne
    have hlen2 : ((pairsOf rs).map Prod.fst).length = hh.file_count := by
      rw [List.length_map, pairsOf, List.length_map]
      exact rawSeq_length f hh.file_count headerSize rs hraw
    omega
  · intro p
    rw [foldInsert_lookup]
    match hl : lastOffsetOf (pairsOf rs) p with
    | some w => rfl
    | none => rfl

set_option maxRecDepth 8000 in
/-- Witness for C10 on the concrete archive whose two records are both
named "a". -/
theorem claim_C10_witness :
    ∃ idx, read_header_and_index fDup = .ok (hdrA, idx) ∧
      idx.length < hdrA.file_count ∧
      ∀ p, lookupA idx p =
        lastOffsetOf (pairsOf [(88, ⟨1, [97], 200, 4, List.replicate 16 0⟩),
          (125, ⟨1, [97], 204, 4, List.replicate 16 0⟩)]) p :=
  claim_C10 fDup hdrA
    [(88, ⟨1, [97], 200, 4, List.replicate 16 0⟩),
     (125, ⟨1, [97], 204, 4, List.replicate 16 0⟩)]
    (by rfl) (by rfl) (by decide) (by decide)


/-! ## Append-channel and phase-extension lemmas -/

theorem append_bytes_spec (c : AppendCtx) (d : List Nat)
    (h : c.append_pos = c.file.length) :
    c.append_bytes d =
      (⟨c.file ++ d, c.file.length + d.length⟩, c.file.length) := by
  rw [AppendCtx.append_bytes, h, writeBytes_at_end c.file d rfl]

theorem move_range_ok (c : AppendCtx) (off sz : Nat) (c1 : AppendCtx)
    (noff : Nat) (h : c.move_range off sz = .ok (c1, noff)) :
    off + sz ≤ c.file.length ∧
    (c1, noff) = c.append_bytes ((c.file.drop off).take sz) := by
  rw [AppendCtx.move_range] at h
  split at h
  · exact ⟨by assumption, (Except.ok.inj h).symm⟩
  · exact Except.noConfusion h

theorem movePhase_extends (ts : List (Path × Nat × Nat)) :
    ∀ (c : AppendCtx) (m : EntryMap) (c1 : AppendCtx) (m1 : EntryMap),
    movePhase c m ts = .ok (c1, m1) → c.append_pos = c.file.length →
    c1.append_pos = c1.file.length ∧
    ∃ ext, c1.file = c.file ++ ext ∧
      ext.length = (ts.map (fun t => t.2.2)).sum := by
  induction ts with
  | nil =>
    intro c m c1 m1 h hpos
    rw [movePhase] at h
    have := Except.ok.inj h
    rw [Prod.mk.injEq] at this
    obtain ⟨h1, h2⟩ := this
    subst h1
    exact ⟨hpos, [], by simp, rfl⟩
  | cons t rest ih =>
    intro c m c1 m1 h hpos
    obtain ⟨p, off, sz⟩ := t
    rw [movePhase] at h
    match hmr : c.move_range off sz with
    | .error e => rw [hmr] at h; exact Except.noConfusion h
    | .ok cn =>
      rw [hmr] at h
      dsimp only at h
      match hup : update_by_path m p
          (fun e => ⟨e.path_len, e.path_bytes, cn.2, e.size, e.md5⟩) with
      | none => rw [hup] at h; exact Except.noConfusion h
      | some mn =>
        rw [hup] at h
        dsimp only at h
        rcases move_range_ok c off sz cn.1 cn.2 (by rw [hmr]) with ⟨hle, hab⟩
        have hchunk : ((c.file.drop off).take sz).length = sz := by
          simp only [List.length_take, List.length_drop]
          omega
        rw [append_bytes_spec c _ hpos] at hab
        have hc1 : cn.1 = ⟨c.file ++ (c.file.drop off).take sz,
            c.file.length + ((c.file.drop off).take sz).length⟩ :=
          congrArg Prod.fst hab
        rcases ih cn.1 mn c1 m1 h (by rw [hc1]; simp) with
          ⟨hpos1, ext, hext, hlen⟩
        refine ⟨hpos1, (c.file.drop off).take sz ++ ext, ?_, ?_⟩
        · rw [hext, hc1]
          simp
        · simp only [List.length_append, hchunk, hlen, List.map_cons,
            List.sum_cons]

theorem addPhase_extends (adds : List (Path × List Nat)) :
    ∀ (md5c : List Nat → List Nat) (c : AppendCtx) (m : EntryMap) (next : Nat),
    c.append_pos = c.file.length →
    (addPhase md5c c m next adds).1.append_pos =
      (addPhase md5c c m next adds).1.file.length ∧
    ∃ ext, (addPhase md5c c m next adds).1.file = c.file ++ ext ∧
      ext.length = (adds.map (fun pd => pd.2.length)).sum := by
  induction adds with
  | nil =>
    intro md5c c m next hpos
    exact ⟨hpos, [], by rw [addPhase, List.append_nil], rfl⟩
  | cons pd rest ih =>
    intro md5c c m next hpos
    obtain ⟨p, d⟩ := pd
    rw [addPhase]
    rw [show c.append_bytes d =
      (⟨c.file ++ d, c.file.length + d.length⟩, c.file.length) from
      append_bytes_spec c d hpos]
    dsimp only
    rcases ih md5c ⟨c.file ++ d, c.file.length + d.length⟩
      (insertSorted ⟨p, next, ⟨(normalized_path_bytes p).length,
        normalized_path_bytes p, c.file.length, d.length, md5c d⟩⟩ m)
      (next + entry_binary_size (normalized_path_bytes p).length) (by simp)
      with ⟨hpos1, ext, hext, hlen⟩
    refine ⟨hpos1, d ++ ext, ?_, ?_⟩
    · rw [hext]
      simp
    · simp only [List.length_append, hlen, List.map_cons, List.sum_cons]

theorem replacePhase_extends (repls : List (Path × List Nat)) :
    ∀ (md5c : List Nat → List Nat) (c : AppendCtx) (m : EntryMap)
    (c1 : AppendCtx) (m1 : EntryMap),
    replacePhase md5c c m repls = .ok (c1, m1) →
    c.append_pos = c.file.length →
    c1.append_pos = c1.file.length ∧
    ∃ ext, c1.file = c.file ++ ext ∧
      ext.length = (repls.map (fun pd => pd.2.length)).sum := by
  induction repls with
  | nil =>
    intro md5c c m c1 m1 h hpos
    rw [replacePhase] at h
    have := Except.ok.inj h
    rw [Prod.mk.injEq] at this
    obtain ⟨h1, h2⟩ := this
    subst h1
    exact ⟨hpos, [], by simp, rfl⟩
  | cons pd rest ih =>
    intro md5c c m c1 m1 h hpos
    obtain ⟨p, d⟩ := pd
    rw [replacePhase] at h
    rw [show c.append_bytes d =
      (⟨c.file ++ d, c.file.length + d.length⟩, c.file.length) from
      append_bytes_spec c d hpos] at h
    dsimp only at h
    match hup : update_by_path m p (fun e =>
        ⟨e.path_len, e.path_bytes, c.file.length, d.length, md5c d⟩) with
    | none => rw [hup] at h; exact Except.noConfusion h
    | some mn =>
      rw [hup] at h
      dsimp only at h
      rcases ih md5c ⟨c.file ++ d, c.file.length + d.length⟩ mn c1 m1 h
        (by simp) with ⟨hpos1, ext, hext, hlen⟩
      refine ⟨hpos1, d ++ ext, ?_, ?_⟩
      · rw [hext]
        simp
      · simp only [List.length_append, hlen, List.map_cons, List.sum_cons]

/-! ## Entry-index mutation lemmas -/

theorem hasPath_iff (m : EntryMap) (p : Path) :
    hasPath m p = true ↔ ∃ r ∈ m, r.path = p := by
  simp [hasPath]

theorem update_by_path_some_inv (m : EntryMap) (p : Path)
    (g : RawFileEntry → RawFileEntry) (m2 : EntryMap)
    (h : update_by_path m p g = some m2) :
    hasPath m p = true ∧
    m2 = m.map (fun r =>
      if r.path = p then ⟨r.path, r.table_offset, g r.entry⟩ else r) := by
  rw [update_by_path] at h
  split at h
  · exact ⟨by assumption, (Option.some.inj h).symm⟩
  · exact Option.noConfusion h

theorem update_keeps (m : EntryMap) (p : Path) (g : RawFileEntry → RawFileEntry)
    (r : EntryRecord) (hr : r ∈ m) (hne : r.path ≠ p) :
    r ∈ m.map (fun x =>
      if x.path = p then ⟨x.path, x.table_offset, g x.entry⟩ else x) := by
  have : (fun x : EntryRecord =>
      if x.path = p then ⟨x.path, x.table_offset, g x.entry⟩ else x) r = r := by
    show (if r.path = p then
      (⟨r.path, r.table_offset, g r.entry⟩ : EntryRecord) else r) = r
    rw [if_neg hne]
  rw [← this]
  exact List.mem_map_of_mem _ hr

theorem update_hits (m : EntryMap) (p : Path) (g : RawFileEntry → RawFileEntry)
    (r : EntryRecord) (hr : r ∈ m) (heq : r.path = p) :
    (⟨r.path, r.table_offset, g r.entry⟩ : EntryRecord) ∈ m.map (fun x =>
      if x.path = p then ⟨x.path, x.table_offset, g x.entry⟩ else x) := by
  have : (fun x : EntryRecord =>
      if x.path = p then ⟨x.path, x.table_offset, g x.entry⟩ else x) r =
      ⟨r.path, r.table_offset, g r.entry⟩ := by
    show (if r.path = p then
      (⟨r.path, r.table_offset, g r.entry⟩ : EntryRecord) else r) =
      ⟨r.path, r.table_offset, g r.entry⟩
    rw [if_pos heq]
  rw [← this]
  exact List.mem_map_of_mem _ hr

theorem update_src (m : EntryMap) (p : Path) (g : RawFileEntry → RawFileEntry)
    (r2 : EntryRecord)
    (h : r2 ∈ m.map (fun x =>
      if x.path = p then ⟨x.path, x.table_offset, g x.entry⟩ else x)) :
    ∃ r ∈ m, r2 = if r.path = p then
      (⟨r.path, r.table_offset, g r.entry⟩ : EntryRecord) else r := by
  rcases List.mem_map.mp h with ⟨r, hr, he⟩
  exact ⟨r, hr, he.symm⟩

theorem insertSorted_keeps (x : EntryRecord) : ∀ (l : EntryMap) (a : EntryRecord),
    a ∈ l → a ∈ insertSorted x l := by
  intro l
  induction l with
  | nil => intro a ha; simp at ha
  | cons r rs ih =>
    intro a ha
    rw [insertSorted]
    split
    · exact List.mem_cons_of_mem x ha
    · rcases List.mem_cons.mp ha with h1 | h1
      · exact h1 ▸ List.mem_cons_self _ _
      · exact List.mem_cons_of_mem r (ih a h1)

theorem insertSorted_self (x : EntryRecord) : ∀ (l : EntryMap),
    x ∈ insertSorted x l := by
  intro l
  induction l with
  | nil => exact List.mem_singleton.mpr rfl
  | cons r rs ih =>
    rw [insertSorted]
    split
    · exact List.mem_cons_self _ _
    · exact List.mem_cons_of_mem r ih

theorem insertSorted_src (x : EntryRecord) : ∀ (l : EntryMap) (a : EntryRecord),
    a ∈ insertSorted x l → a = x ∨ a ∈ l := by
  intro l
  induction l with
  | nil => intro a ha; simpa [insertSorted] using ha
  | cons r rs ih =>
    intro a ha
    rw [insertSorted] at ha
    split at ha
    · rcases List.mem_cons.mp ha with h1 | h1
      · exact Or.inl h1
      · exact Or.inr h1
    · rcases List.mem_cons.mp ha with h1 | h1
      · exact Or.inr (h1 ▸ List.mem_cons_self _ _)
      · rcases ih a h1 with h2 | h2
        · exact Or.inl h2
        · exact Or.inr (List.mem_cons_of_mem r h2)

/-! ## Move-target lemmas -/

theorem moveTargets_mem (m : EntryMap) (rp : List Path) (plan : TablePlan)
    (t : Path × Nat × Nat) (ht : t ∈ moveTargets m rp plan) :
    rp.contains t.1 = false ∧ t.2.1 < plan.table_end_after ∧
    ∃ r ∈ m, r.path = t.1 ∧ r.entry.offset = t.2.1 ∧ r.entry.size = t.2.2 := by
  rcases List.mem_map.mp ht with ⟨r, hr, he⟩
  have hf := List.mem_filter.mp hr
  simp only [Bool.and_eq_true, Bool.not_eq_eq_eq_not, Bool.not_true,
    decide_eq_true_eq] at hf
  obtain ⟨hrm, hnc, hlt⟩ := hf
  refine ⟨?_, ?_, r, hrm, ?_, ?_, ?_⟩
  · rw [← he]
    exact hnc
  · rw [← he]
    exact hlt
  · rw [← he]
  · rw [← he]
  · rw [← he]

theorem moveTargets_complete (m : EntryMap) (rp : List Path) (plan : TablePlan)
    (r : EntryRecord) (hr : r ∈ m) (hnc : rp.contains r.path = false)
    (hlt : r.entry.offset < plan.table_end_after) :
    (r.path, r.entry.offset, r.entry.size) ∈ moveTargets m rp plan := by
  apply List.mem_map.mpr
  refine ⟨r, List.mem_filter.mpr ⟨hr, ?_⟩, rfl⟩
  simp only [Bool.and_eq_true, Bool.not_eq_eq_eq_not, Bool.not_true,
    decide_eq_true_eq]
  exact ⟨hnc, hlt⟩

theorem moveTargets_nodup (m : EntryMap) (rp : List Path) (plan : TablePlan)
    (h : (m.map (fun r => r.path)).Nodup) :
    ((moveTargets m rp plan).map Prod.fst).Nodup := by
  rw [moveTargets, List.map_map]
  have : (Prod.fst ∘ fun r : EntryRecord => (r.path, r.entry.offset, r.entry.size)) =
      fun r : EntryRecord => r.path := rfl
  rw [this]
  exact ((List.filter_sublist m).map (fun r => r.path)).nodup h

/-! ## Phase structure lemmas -/

theorem movePhase_keeps (ts : List (Path × Nat × Nat)) :
    ∀ (c : AppendCtx) (m : EntryMap) (c1 : AppendCtx) (m1 : EntryMap),
    movePhase c m ts = .ok (c1, m1) →
    ∀ r ∈ m, r.path ∉ ts.map Prod.fst → r ∈ m1 := by
  induction ts with
  | nil =>
    intro c m c1 m1 h r hr _
    rw [movePhase] at h
    have := Except.ok.inj h
    rw [Prod.mk.injEq] at this
    exact this.2 ▸ hr
  | cons t rest ih =>
    intro c m c1 m1 h r hr hnp
    obtain ⟨p, off, sz⟩ := t
    rw [movePhase] at h
    match hmr : c.move_range off sz with
    | .error e => rw [hmr] at h; exact Except.noConfusion h
    | .ok cn =>
      rw [hmr] at h
      dsimp only at h
      match hup : update_by_path m p
          (fun e => ⟨e.path_len, e.path_bytes, cn.2, e.size, e.md5⟩) with
      | none => rw [hup] at h; exact Except.noConfusion h
      | some mn =>
        rw [hup] at h
        dsimp only at h
        simp only [List.map_cons, List.mem_cons, not_or] at hnp
        rcases update_by_path_some_inv m p (fun e => ⟨e.path_len, e.path_bytes, cn.2, e.size, e.md5⟩) mn hup with ⟨_, hmn⟩
        have hrmn : r ∈ mn := by
          rw [hmn]
          exact update_keeps m p (fun e => ⟨e.path_len, e.path_bytes, cn.2, e.size, e.md5⟩) r hr hnp.1
        exact ih cn.1 mn c1 m1 h r hrmn hnp.2

theorem movePhase_entries (ts : List (Path × Nat × Nat)) :
    ∀ (c : AppendCtx) (m : EntryMap) (c1 : AppendCtx) (m1 : EntryMap),
    movePhase c m ts = .ok (c1, m1) →
    ∀ r1 ∈ m1, ∃ r ∈ m, r1.path = r.path ∧
      r1.table_offset = r.table_offset ∧
      r1.entry.path_len = r.entry.path_len ∧
      r1.entry.path_bytes = r.entry.path_bytes ∧
      r1.entry.size = r.entry.size ∧ r1.entry.md5 = r.entry.md5 := by
  induction ts with
  | nil =>
    intro c m c1 m1 h r1 hr1
    rw [movePhase] at h
    have := Except.ok.inj h
    rw [Prod.mk.injEq] at this
    exact ⟨r1, this.2 ▸ hr1, rfl, rfl, rfl, rfl, rfl, rfl⟩
  | cons t rest ih =>
    intro c m c1 m1 h r1 hr1
    obtain ⟨p, off, sz⟩ := t
    rw [movePhase] at h
    match hmr : c.move_range off sz with
    | .error e => rw [hmr] at h; exact Except.noConfusion h
    | .ok cn =>
      rw [hmr] at h
      dsimp only at h
      match hup : update_by_path m p
          (fun e => ⟨e.path_len, e.path_bytes, cn.2, e.size, e.md5⟩) with
      | none => rw [hup] at h; exact Except.noConfusion h
      | some mn =>
        rw [hup] at h
        dsimp only at h
        rcases ih cn.1 mn c1 m1 h r1 hr1 with
          ⟨rn, hrn, h1, h2, h3, h4, h5, h6⟩
        rcases update_by_path_some_inv m p (fun e => ⟨e.path_len, e.path_bytes, cn.2, e.size, e.md5⟩) mn hup with ⟨_, hmn⟩
        rw [hmn] at hrn
        rcases update_src m p (fun e => ⟨e.path_len, e.path_bytes, cn.2, e.size, e.md5⟩) rn hrn with ⟨r, hr, hre⟩
        refine ⟨r, hr, ?_⟩
        by_cases hp : r.path = p
        · rw [if_pos hp] at hre
          rw [hre] at h1 h2 h3 h4 h5 h6
          exact ⟨h1, h2, h3, h4, h5, h6⟩
        · rw [if_neg hp] at hre
          rw [hre] at h1 h2 h3 h4 h5 h6
          exact ⟨h1, h2, h3, h4, h5, h6⟩

theorem movePhase_target (ts : List (Path × Nat × Nat)) :
    ∀ (c : AppendCtx) (m : EntryMap) (c1 : AppendCtx) (m1 : EntryMap)
      (f0 : FileBytes),
    movePhase c m ts = .ok (c1, m1) →
    c.append_pos = c.file.length →
    (∃ e0, c.file = f0 ++ e0) →
    (∀ t ∈ ts, t.2.1 + t.2.2 ≤ f0.length) →
    ((ts.map Prod.fst).Nodup) →
    ∀ t ∈ ts, (∃ r ∈ m, r.path = t.1) →
      ∃ r1 ∈ m1, r1.path = t.1 ∧ c.file.length ≤ r1.entry.offset ∧
        r1.entry.offset + t.2.2 ≤ c1.file.length ∧
        (c1.file.drop r1.entry.offset).take t.2.2 =
          (f0.drop t.2.1).take t.2.2 := by
  induction ts with
  | nil =>
    intro c m c1 m1 f0 h hpos hext hin hnd t ht
    simp at ht
  | cons t0 rest ih =>
    intro c m c1 m1 f0 h hpos hext hin hnd t ht hex
    obtain ⟨p, off, sz⟩ := t0
    rw [movePhase] at h
    match hmr : c.move_range off sz with
    | .error e => rw [hmr] at h; exact Except.noConfusion h
    | .ok cn =>
      rw [hmr] at h
      dsimp only at h
      match hup : update_by_path m p
          (fun e => ⟨e.path_len, e.path_bytes, cn.2, e.size, e.md5⟩) with
      | none => rw [hup] at h; exact Except.noConfusion h
      | some mn =>
        rw [hup] at h
        dsimp only at h
        rcases move_range_ok c off sz cn.1 cn.2 (by rw [hmr]) with ⟨hle, hab⟩
        rw [append_bytes_spec c _ hpos] at hab
        have hc1 : cn.1 = ⟨c.file ++ (c.file.drop off).take sz,
            c.file.length + ((c.file.drop off).take sz).length⟩ :=
          congrArg Prod.fst hab
        have hc2 : cn.2 = c.file.length := congrArg Prod.snd hab
        rcases hext with ⟨e0, he0⟩
        have hin0 : off + sz ≤ f0.length := hin (p, off, sz)
          (List.mem_cons_self _ _)
        have hchunk : (c.file.drop off).take sz = (f0.drop off).take sz := by
          rw [he0]
          exact take_drop_append_of_le f0 e0 off sz hin0
        have hchlen : ((c.file.drop off).take sz).length = sz := by
          simp only [List.length_take, List.length_drop]
          omega
        simp only [List.map_cons, List.nodup_cons] at hnd
        rcases List.mem_cons.mp ht with hteq | htr
        · -- the head target itself
          rcases hex with ⟨r, hr, hpr⟩
          have hpeq : r.path = p := by rw [hpr, hteq]
          rcases update_by_path_some_inv m p (fun e => ⟨e.path_len, e.path_bytes, cn.2, e.size, e.md5⟩) mn hup with ⟨_, hmn⟩
          have hhit := update_hits m p
            (fun e => ⟨e.path_len, e.path_bytes, cn.2, e.size, e.md5⟩) r hr hpeq
          rw [← hmn] at hhit
          have hr1m1 : (⟨r.path, r.table_offset,
              ⟨r.entry.path_len, r.entry.path_bytes, cn.2, r.entry.size,
                r.entry.md5⟩⟩ : EntryRecord) ∈ m1 := by
            apply movePhase_keeps rest cn.1 mn c1 m1 h _ hhit
            rw [hpeq]
            intro hc
            exact hnd.1 hc
          rcases movePhase_extends rest cn.1 mn c1 m1 h
            (by rw [hc1]; simp) with ⟨_, ext, hextf, _⟩
          refine ⟨_, hr1m1, ?_, ?_, ?_, ?_⟩
          · show r.path = t.1
            rw [hteq, hpeq]
          · show c.file.length ≤ cn.2
            rw [hc2]
          · rw [hc2, hextf, hc1]
            have ht22 : t.2.2 = sz := by rw [hteq]
            rw [ht22]
            simp only [List.length_append, hchlen]
            omega
          · rw [hextf, hc1]
            dsimp only
            have ht22 : t.2.2 = sz := by rw [hteq]
            have ht21 : t.2.1 = off := by rw [hteq]
            rw [ht22, ht21, hc2, List.append_assoc,
              List.drop_append_eq_append_drop,
              List.drop_eq_nil_of_le (Nat.le_refl _), Nat.sub_self,
              List.drop_zero, List.nil_append, List.take_append_eq_append_take,
              hchlen]
            rw [show sz - sz = 0 from Nat.sub_self sz, List.take_zero,
              List.append_nil, ← hchunk]
            exact List.take_of_length_le (by rw [hchlen])
        · -- a target in the tail
          rcases hex with ⟨r, hr, hpr⟩
          have hpne : r.path ≠ p := by
            rw [hpr]
            intro hc
            apply hnd.1
            rw [← hc]
            exact List.mem_map_of_mem Prod.fst htr
          rcases update_by_path_some_inv m p (fun e => ⟨e.path_len, e.path_bytes, cn.2, e.size, e.md5⟩) mn hup with ⟨_, hmn⟩
          have hrmn : r ∈ mn := by
            rw [hmn]
            exact update_keeps m p (fun e => ⟨e.path_len, e.path_bytes, cn.2, e.size, e.md5⟩) r hr hpne
          rcases ih cn.1 mn c1 m1 f0 h (by rw [hc1]; simp)
            ⟨e0 ++ (c.file.drop off).take sz, by rw [hc1]; simp [he0]⟩
            (fun t2 ht2 => hin t2 (List.mem_cons_of_mem _ ht2)) hnd.2
            t htr ⟨r, hrmn, hpr⟩ with ⟨r1, hr1, ha, hb, hc, hd⟩
          refine ⟨r1, hr1, ha, ?_, hc, hd⟩
          have : c.file.length ≤ cn.1.file.length := by
            rw [hc1]
            simp
          omega

/-! ## Addition and replacement phase structure lemmas -/

theorem addPhase_mem (adds : List (Path × List Nat)) :
    ∀ (md5c : List Nat → List Nat) (c : AppendCtx) (m : EntryMap) (next : Nat),
    ∀ r ∈ m, r ∈ (addPhase md5c c m next adds).2 := by
  induction adds with
  | nil =>
    intro md5c c m next r hr
    exact hr
  | cons pd rest ih =>
    intro md5c c m next r hr
    obtain ⟨p, d⟩ := pd
    rw [addPhase]
    exact ih md5c _ _ _ r (insertSorted_keeps _ m r hr)

theorem addPhase_src (adds : List (Path × List Nat)) :
    ∀ (md5c : List Nat → List Nat) (c : AppendCtx) (m : EntryMap) (next : Nat),
    c.append_pos = c.file.length →
    ∀ r2 ∈ (addPhase md5c c m next adds).2, r2 ∈ m ∨
      ∃ pd ∈ adds, r2.entry.path_bytes = normalized_path_bytes pd.1 ∧
        r2.entry.path_len = (normalized_path_bytes pd.1).length ∧
        r2.entry.md5 = md5c pd.2 := by
  induction adds with
  | nil =>
    intro md5c c m next _ r2 hr2
    exact Or.inl hr2
  | cons pd rest ih =>
    intro md5c c m next hpos r2 hr2
    obtain ⟨p, d⟩ := pd
    rw [addPhase] at hr2
    rw [show c.append_bytes d =
      (⟨c.file ++ d, c.file.length + d.length⟩, c.file.length) from
      append_bytes_spec c d hpos] at hr2
    dsimp only at hr2
    rcases ih md5c ⟨c.file ++ d, c.file.length + d.length⟩ _ _ (by simp)
      r2 hr2 with h1 | h1
    · rcases insertSorted_src _ m r2 h1 with h2 | h2
      · right
        refine ⟨(p, d), List.mem_cons_self _ _, ?_, ?_, ?_⟩ <;> rw [h2]
      · exact Or.inl h2
    · right
      rcases h1 with ⟨pd2, hpd2, hprops⟩
      exact ⟨pd2, List.mem_cons_of_mem _ hpd2, hprops⟩

theorem addPhase_new (adds : List (Path × List Nat)) :
    ∀ (md5c : List Nat → List Nat) (c : AppendCtx) (m : EntryMap) (next : Nat),
    c.append_pos = c.file.length → adds ≠ [] →
    ∃ rec ∈ (addPhase md5c c m next adds).2,
      rec.path ∈ adds.map Prod.fst ∧
      rec.entry.offset ≤ (addPhase md5c c m next adds).1.file.length := by
  induction adds with
  | nil =>
    intro md5c c m next _ hne
    exact absurd rfl hne
  | cons pd rest ih =>
    intro md5c c m next hpos _
    obtain ⟨p, d⟩ := pd
    rw [addPhase]
    rw [show c.append_bytes d =
      (⟨c.file ++ d, c.file.length + d.length⟩, c.file.length) from
      append_bytes_spec c d hpos]
    dsimp only
    match rest with
    | [] =>
      refine ⟨⟨p, next, ⟨(normalized_path_bytes p).length, normalized_path_bytes p,
        c.file.length, d.length, md5c d⟩⟩, ?_, ?_, ?_⟩
      · exact insertSorted_self _ _
      · simp
      · show c.file.length ≤ (addPhase md5c _ _ _ []).1.file.length
        rw [addPhase]
        simp
    | pd2 :: rest2 =>
      rcases ih md5c ⟨c.file ++ d, c.file.length + d.length⟩
        (insertSorted ⟨p, next, ⟨(normalized_path_bytes p).length,
          normalized_path_bytes p, c.file.length, d.length, md5c d⟩⟩ m)
        (next + entry_binary_size (normalized_path_bytes p).length)
        (by simp) (by simp) with ⟨rec, hrec, hp, hoff⟩
      exact ⟨rec, hrec, List.mem_cons_of_mem _ hp, hoff⟩

theorem replacePhase_keeps (repls : List (Path × List Nat)) :
    ∀ (md5c : List Nat → List Nat) (c : AppendCtx) (m : EntryMap)
    (c1 : AppendCtx) (m1 : EntryMap),
    replacePhase md5c c m repls = .ok (c1, m1) →
    ∀ r ∈ m, r.path ∉ repls.map Prod.fst → r ∈ m1 := by
  induction repls with
  | nil =>
    intro md5c c m c1 m1 h r hr _
    rw [replacePhase] at h
    have := Except.ok.inj h
    rw [Prod.mk.injEq] at this
    exact this.2 ▸ hr
  | cons pd rest ih =>
    intro md5c c m c1 m1 h r hr hnp
    obtain ⟨p, d⟩ := pd
    rw [replacePhase] at h
    match hup : update_by_path m p (fun e =>
        ⟨e.path_len, e.path_bytes, (c.append_bytes d).2, d.length, md5c d⟩) with
    | none => rw [hup] at h; exact Except.noConfusion h
    | some mn =>
      rw [hup] at h
      dsimp only at h
      simp only [List.map_cons, List.mem_cons, not_or] at hnp
      rcases update_by_path_some_inv m p (fun e =>
        ⟨e.path_len, e.path_bytes, (c.append_bytes d).2, d.length, md5c d⟩)
        mn hup with ⟨_, hmn⟩
      have hrmn : r ∈ mn := by
        rw [hmn]
        exact update_keeps m p (fun e =>
        ⟨e.path_len, e.path_bytes, (c.append_bytes d).2, d.length, md5c d⟩) r hr hnp.1
      exact ih md5c (c.append_bytes d).1 mn c1 m1 h r hrmn hnp.2

theorem replacePhase_src (repls : List (Path × List Nat)) :
    ∀ (md5c : List Nat → List Nat) (c : AppendCtx) (m : EntryMap)
    (c1 : AppendCtx) (m1 : EntryMap),
    replacePhase md5c c m repls = .ok (c1, m1) →
    ∀ r2 ∈ m1, ∃ r ∈ m, r2.path = r.path ∧
      r2.entry.path_len = r.entry.path_len ∧
      r2.entry.path_bytes = r.entry.path_bytes ∧
      (r2.entry.md5 = r.entry.md5 ∨ ∃ d, r2.entry.md5 = md5c d) := by
  induction repls with
  | nil =>
    intro md5c c m c1 m1 h r2 hr2
    rw [replacePhase] at h
    have := Except.ok.inj h
    rw [Prod.mk.injEq] at this
    exact ⟨r2, this.2 ▸ hr2, rfl, rfl, rfl, Or.inl rfl⟩
  | cons pd rest ih =>
    intro md5c c m c1 m1 h r2 hr2
    obtain ⟨p, d⟩ := pd
    rw [replacePhase] at h
    match hup : update_by_path m p (fun e =>
        ⟨e.path_len, e.path_bytes, (c.append_bytes d).2, d.length, md5c d⟩) with
    | none => rw [hup] at h; exact Except.noConfusion h
    | some mn =>
      rw [hup] at h
      dsimp only at h
      rcases ih md5c (c.append_bytes d).1 mn c1 m1 h r2 hr2 with
        ⟨rn, hrn, h1, h2, h3, h4⟩
      rcases update_by_path_some_inv m p (fun e =>
        ⟨e.path_len, e.path_bytes, (c.append_bytes d).2, d.length, md5c d⟩)
        mn hup with ⟨_, hmn⟩
      rw [hmn] at hrn
      rcases update_src m p (fun e =>
        ⟨e.path_len, e.path_bytes, (c.append_bytes d).2, d.length, md5c d⟩) rn hrn with ⟨r, hr, hre⟩
      refine ⟨r, hr, ?_⟩
      by_cases hp : r.path = p
      · rw [if_pos hp] at hre
        rw [hre] at h1 h2 h3 h4
        refine ⟨h1, h2, h3, ?_⟩
        rcases h4 with h5 | h5
        · exact Or.inr ⟨d, h5⟩
        · exact Or.inr h5
      · rw [if_neg hp] at hre
        rw [hre] at h1 h2 h3 h4
        exact ⟨h1, h2, h3, h4⟩

theorem replacePhase_last (repls : List (Path × List Nat)) :
    ∀ (md5c : List Nat → List Nat) (c : AppendCtx) (m : EntryMap)
    (c1 : AppendCtx) (m1 : EntryMap),
    replacePhase md5c c m repls = .ok (c1, m1) →
    c.append_pos = c.file.length → repls ≠ [] →
    ∃ rec ∈ m1, rec.entry.offset ≤ c1.file.length := by
  induction repls with
  | nil =>
    intro md5c c m c1 m1 _ _ hne
    exact absurd rfl hne
  | cons pd rest ih =>
    intro md5c c m c1 m1 h hpos _
    obtain ⟨p, d⟩ := pd
    rw [replacePhase] at h
    rw [show c.append_bytes d =
      (⟨c.file ++ d, c.file.length + d.length⟩, c.file.length) from
      append_bytes_spec c d hpos] at h
    dsimp only at h
    match hup : update_by_path m p (fun e =>
        ⟨e.path_len, e.path_bytes, c.file.length, d.length, md5c d⟩) with
    | none => rw [hup] at h; exact Except.noConfusion h
    | some mn =>
      rw [hup] at h
      dsimp only at h
      match rest with
      | [] =>
        rw [replacePhase] at h
        have hinj := Except.ok.inj h
        rw [Prod.mk.injEq] at hinj
        have hmn := update_by_path_some_inv m p (fun e =>
          ⟨e.path_len, e.path_bytes, c.file.length, d.length, md5c d⟩)
          mn hup
        have hhp := hmn.1
        rcases (hasPath_iff m p).mp hhp with ⟨r, hr, hpr⟩
        refine ⟨⟨r.path, r.table_offset, ⟨r.entry.path_len, r.entry.path_bytes,
          c.file.length, d.length, md5c d⟩⟩, ?_, ?_⟩
        · rw [← hinj.2, hmn.2]
          exact update_hits m p (fun e =>
            ⟨e.path_len, e.path_bytes, c.file.length, d.length, md5c d⟩)
            r hr hpr
        · show c.file.length ≤ c1.file.length
          rw [← hinj.1]
          simp
      | pd2 :: rest2 =>
        exact ih md5c ⟨c.file ++ d, c.file.length + d.length⟩ mn c1 m1 h
          (by simp) (by simp)

/-! ## Minimum-offset and serialization-size lemmas -/

theorem minDataOffset_le (m : EntryMap) : ∀ (v : Nat),
    minDataOffset m = some v → ∀ r ∈ m, v ≤ r.entry.offset := by
  induction m with
  | nil =>
    intro v h
    simp [minDataOffset] at h
  | cons r0 rs ih =>
    intro v h r hr
    rw [minDataOffset] at h
    have hv := Option.some.inj h
    rcases List.mem_cons.mp hr with h1 | h1
    · subst h1
      match hmr : minDataOffset rs with
      | none =>
        rw [hmr] at hv
        dsimp only at hv
        omega
      | some w =>
        rw [hmr] at hv
        dsimp only at hv
        omega
    · match hmr : minDataOffset rs with
      | none =>
        rcases rs with _ | ⟨a, b⟩
        · simp at h1
        · rw [minDataOffset] at hmr
          exact Option.noConfusion hmr
      | some w =>
        rw [hmr] at hv
        dsimp only at hv
        have := ih w hmr r h1
        have hle : v ≤ w := by omega
        omega

theorem minDataOffset_isSome (m : EntryMap) (h : m ≠ []) :
    ∃ v, minDataOffset m = some v := by
  rcases m with _ | ⟨r, rs⟩
  · exact absurd rfl h
  · exact ⟨_, rfl⟩

theorem length_le64 (n : Nat) : (le64 n).length = 8 := rfl

theorem length_serializeEntry (e : RawFileEntry) :
    (serializeEntry e).length = 4 + e.path_bytes.length + 8 + 8 +
      e.md5.length := by
  simp only [serializeEntry, List.length_append, length_le32, length_le64]

theorem length_serializeTable (m : EntryMap)
    (hwf : ∀ r ∈ m, r.entry.path_bytes.length = r.entry.path_len ∧
      r.entry.md5.length = 16) :
    (serializeTable m).length = tableSize m := by
  induction m with
  | nil => rfl
  | cons r rs ih =>
    rw [serializeTable, List.flatMap_cons, ← serializeTable]
    rw [tableSize, List.map_cons, List.sum_cons, ← tableSize]
    rcases hwf r (List.mem_cons_self _ _) with ⟨h1, h2⟩
    simp only [List.length_append, length_serializeEntry, h1, h2,
      ih (fun x hx => hwf x (List.mem_cons_of_mem _ hx)), entry_binary_size]

theorem length_flatMap_le32 (l : List Nat) :
    (l.flatMap le32).length = 4 * l.length := by
  induction l with
  | nil => rfl
  | cons a t ih =>
    rw [List.flatMap_cons]
    simp only [List.length_append, List.length_cons, ih, length_le32]
    omega

theorem length_serializeHeader (h : Header) (hres : h.reserved.length = 16) :
    (serializeHeader h).length = 88 := by
  simp only [serializeHeader, List.length_append, length_le32,
    length_flatMap_le32, hres, gdpcMagic, List.length_cons, List.length_nil]

theorem serializeHeader_drop84 (h : Header) (hres : h.reserved.length = 16) :
    (serializeHeader h).drop 84 = le32 h.file_count := by
  have hA : (gdpcMagic ++ le32 h.version ++ le32 h.godot_version_major ++
      le32 h.godot_version_minor ++ le32 h.godot_version_patch ++
      h.reserved.flatMap le32).length = 84 := by
    simp only [List.length_append, length_le32, length_flatMap_le32, hres,
      gdpcMagic, List.length_cons, List.length_nil]
  rw [serializeHeader, List.drop_append_eq_append_drop,
    List.drop_eq_nil_of_le (by rw [hA]), hA, Nat.sub_self, List.drop_zero,
    List.nil_append]

/-! ## Write-back lemmas -/

theorem writeBack_ok_inv (f : FileBytes) (hdr : Header) (plan : TablePlan)
    (m : EntryMap) (f2 : FileBytes) (h : writeBack f hdr plan m = .ok f2) :
    ∃ minOff, minDataOffset m = some minOff ∧
      plan.table_start + tableSize m ≤ minOff ∧
      m.length < 4294967296 ∧
      f2 = writeBytes (writeBytes f 0
        (serializeHeader { hdr with file_count := m.length }))
        plan.table_start (serializeTable m) := by
  rw [writeBack] at h
  match hmo : minDataOffset m with
  | none => rw [hmo] at h; exact Except.noConfusion h
  | some minOff =>
    rw [hmo] at h
    dsimp only at h
    split at h
    · exact Except.noConfusion h
    split at h
    · exact Except.noConfusion h
    refine ⟨minOff, rfl, by omega, by omega, (Except.ok.inj h).symm⟩

theorem writeBack_overflow (f : FileBytes) (hdr : Header) (plan : TablePlan)
    (m : EntryMap) (minOff : Nat) (hmo : minDataOffset m = some minOff)
    (hgt : plan.table_start + tableSize m > minOff) :
    writeBack f hdr plan m = .error "table overflow" := by
  rw [writeBack, hmo]
  dsimp only
  rw [if_pos hgt]

theorem writeBack_ok (f : FileBytes) (hdr : Header) (plan : TablePlan)
    (m : EntryMap) (minOff : Nat) (hmo : minDataOffset m = some minOff)
    (hle : plan.table_start + tableSize m ≤ minOff)
    (hcnt : m.length < 4294967296) :
    writeBack f hdr plan m = .ok (writeBytes (writeBytes f 0
      (serializeHeader { hdr with file_count := m.length }))
      plan.table_start (serializeTable m)) := by
  rw [writeBack, hmo]
  dsimp only
  rw [if_neg (by omega), if_neg (by omega)]

/-! ## Whole-run lemmas for the replace pass -/

theorem split_inputs_length (files : List (Path × List Nat)) (m : EntryMap) :
    (split_inputs files m).1.length + (split_inputs files m).2.length =
      files.length := by
  induction files with
  | nil => rfl
  | cons pd rest ih =>
    rw [split_inputs]
    split
    · simp only [List.length_cons]
      omega
    · simp only [List.length_cons]
      omega

theorem readBytes_length (f : FileBytes) (pos n : Nat) (bs : List Nat)
    (h : readBytes f pos n = some bs) : bs.length = n := by
  rw [readBytes] at h
  split at h
  · rw [← Option.some.inj h]
    simp only [List.length_take, List.length_drop]
    omega
  · exact Option.noConfusion h

theorem parseEntry_wf (f : FileBytes) (pos : Nat) (e : RawFileEntry) (nx : Nat)
    (h : parseEntry f pos = .ok (e, nx)) :
    e.path_bytes.length = e.path_len ∧ e.md5.length = 16 := by
  rw [parseEntry] at h
  match h32 : readU32 f pos with
  | none => rw [h32] at h; exact Except.noConfusion h
  | some plen =>
    rw [h32] at h
    dsimp only at h
    match hb : readBytes f (pos + 4) plen, ho : readU64 f (pos + 4 + plen),
        hs : readU64 f (pos + 12 + plen), hm : readBytes f (pos + 20 + plen) 16 with
    | some pb, some off, some sz, some md =>
      rw [hb, ho, hs, hm] at h
      dsimp only at h
      have hinj := Except.ok.inj h
      rw [Prod.mk.injEq] at hinj
      rw [← hinj.1]
      exact ⟨readBytes_length f (pos + 4) plen pb hb,
        readBytes_length f (pos + 20 + plen) 16 md hm⟩
    | none, _, _, _ => rw [hb] at h; exact Except.noConfusion h
    | some pb, none, _, _ => rw [hb, ho] at h; exact Except.noConfusion h
    | some pb, some off, none, _ =>
      rw [hb, ho, hs] at h
      exact Except.noConfusion h
    | some pb, some off, some sz, none =>
      rw [hb, ho, hs, hm] at h
      exact Except.noConfusion h

theorem buildEntries_wf (f : FileBytes) : ∀ (eo : List (Path × Nat))
    (m : EntryMap), buildEntries f eo = .ok m →
    ∀ r ∈ m, r.entry.path_bytes.length = r.entry.path_len ∧
      r.entry.md5.length = 16 := by
  intro eo
  induction eo with
  | nil =>
    intro m h r hr
    rw [buildEntries] at h
    rw [← Except.ok.inj h] at hr
    simp at hr
  | cons po rest ih =>
    intro m h r hr
    obtain ⟨p, off⟩ := po
    rw [buildEntries] at h
    match hpe : parseEntry f off with
    | .error e => rw [hpe] at h; exact Except.noConfusion h
    | .ok (e1, nx) =>
      rw [hpe] at h
      dsimp only at h
      match hbe : buildEntries f rest with
      | .error e => rw [hbe] at h; exact Except.noConfusion h
      | .ok rs =>
        rw [hbe] at h
        dsimp only at h
        rw [← Except.ok.inj h] at hr
        rcases List.mem_cons.mp hr with h1 | h1
        · rw [h1]
          exact parseEntry_wf f off e1 nx hpe
        · exact ih rs hbe r h1

theorem build_entry_map_wf (f : FileBytes) (eo : List (Path × Nat))
    (m : EntryMap) (h : build_entry_map f eo = .ok m) :
    ∀ r ∈ m, r.entry.path_bytes.length = r.entry.path_len ∧
      r.entry.md5.length = 16 :=
  buildEntries_wf f (List.insertionSort offsetLe eo) m h

theorem phases_wf (md5c : List Nat → List Nat) (f : FileBytes)
    (eo : List (Path × Nat)) (m m1 m2 m3 : EntryMap)
    (c0 c1 c2v c3 : AppendCtx) (ts : List (Path × Nat × Nat)) (next : Nat)
    (adds repls : List (Path × List Nat))
    (hmd5len : ∀ d, (md5c d).length = 16)
    (hbuild : build_entry_map f eo = .ok m)
    (hmove : movePhase c0 m ts = .ok (c1, m1))
    (hadd : addPhase md5c c1 m1 next adds = (c2v, m2))
    (hpos1 : c1.append_pos = c1.file.length)
    (hrepl : replacePhase md5c c2v m2 repls = .ok (c3, m3)) :
    ∀ r ∈ m3, r.entry.path_bytes.length = r.entry.path_len ∧
      r.entry.md5.length = 16 := by
  intro r hr
  rcases replacePhase_src repls md5c c2v m2 c3 m3 hrepl r hr with
    ⟨r2, hr2, _, hpl, hpb, hmd⟩
  have hw2 : r2.entry.path_bytes.length = r2.entry.path_len ∧
      r2.entry.md5.length = 16 := by
    have hm2 : m2 = (addPhase md5c c1 m1 next adds).2 := by rw [hadd]
    rw [hm2] at hr2
    rcases addPhase_src adds md5c c1 m1 next hpos1 r2 hr2 with h1 | h1
    · rcases movePhase_entries ts c0 m c1 m1 hmove r2 h1 with
        ⟨r0, hr0, _, _, hl0, hb0, _, hm0⟩
      have := build_entry_map_wf f eo m hbuild r0 hr0
      rw [hl0, hb0, hm0]
      exact this
    · rcases h1 with ⟨pd, _, hb1, hl1, hm1⟩
      rw [hb1, hl1, hm1]
      exact ⟨rfl, hmd5len pd.2⟩
  constructor
  · rw [hpb, hpl]
    exact hw2.1
  · rcases hmd with h1 | h1
    · rw [h1]
      exact hw2.2
    · rcases h1 with ⟨d, hd⟩
      rw [hd]
      exact hmd5len d

theorem replace_run (md5c : List Nat → List Nat) (f : FileBytes)
    (header : Header) (eo : List (Path × Nat))
    (files : List (Path × List Nat)) (m : EntryMap)
    (repls adds : List (Path × List Nat)) (plan : TablePlan)
    (c1 c2v c3 : AppendCtx) (m1 m2 m3 : EntryMap)
    (hne : files ≠ [])
    (hdup : hasDupPath (files.map Prod.fst) = false)
    (hbuild : build_entry_map f eo = .ok m)
    (hra : split_inputs files m = (repls, adds))
    (hplan : plan_table m adds = .ok plan)
    (hmove : movePhase (AppendCtx.new f) m
      (moveTargets m (repls.map Prod.fst) plan) = .ok (c1, m1))
    (hadd : addPhase md5c c1 m1 plan.next_new_table_offset adds = (c2v, m2))
    (hrepl : replacePhase md5c c2v m2 repls = .ok (c3, m3)) :
    replace_files_in_pck md5c f header eo files =
      match writeBack c3.file header plan m3 with
      | .error e => .error (e, c3.file)
      | .ok f1 => .ok f1 := by
  have hie : files.isEmpty = false := by
    cases files with
    | nil => exact absurd rfl hne
    | cons a t => rfl
  rw [replace_files_in_pck, hie]
  simp only [Bool.false_eq_true, if_false, hdup]
  rw [hbuild]
  dsimp only
  rw [hra]
  dsimp only
  rw [hplan]
  dsimp only
  rw [hmove]
  dsimp only
  rw [hadd]
  dsimp only
  rw [hrepl]

theorem run_extends (md5c : List Nat → List Nat) (f : FileBytes)
    (ts : List (Path × Nat × Nat)) (adds repls : List (Path × List Nat))
    (next : Nat) (m m1 m2 m3 : EntryMap) (c1 c2v c3 : AppendCtx)
    (hmove : movePhase (AppendCtx.new f) m ts = .ok (c1, m1))
    (hadd : addPhase md5c c1 m1 next adds = (c2v, m2))
    (hrepl : replacePhase md5c c2v m2 repls = .ok (c3, m3)) :
    c3.append_pos = c3.file.length ∧
    ∃ ext, c3.file = f ++ ext ∧
      ext.length = (ts.map (fun t => t.2.2)).sum +
        (adds.map (fun pd => pd.2.length)).sum +
        (repls.map (fun pd => pd.2.length)).sum := by
  rcases movePhase_extends ts (AppendCtx.new f) m c1 m1 hmove rfl with
    ⟨hp1, e1, he1, hl1⟩
  have h2 := addPhase_extends adds md5c c1 m1 next hp1
  rw [hadd] at h2
  dsimp only at h2
  obtain ⟨hp2, e2, he2, hl2⟩ := h2
  rcases replacePhase_extends repls md5c c2v m2 c3 m3 hrepl hp2 with
    ⟨hp3, e3, he3, hl3⟩
  refine ⟨hp3, e1 ++ (e2 ++ e3), ?_, ?_⟩
  · rw [he3, he2, he1]
    show (f ++ e1) ++ e2 ++ e3 = f ++ (e1 ++ (e2 ++ e3))
    simp [List.append_assoc]
  · simp only [List.length_append, hl1, hl2, hl3]
    omega

/-! ## Claims C1 and C6 -/

/-- Claim C1: in a replace/add pass whose preparatory phases all
succeed, `replace_files_in_pck` aborts with the table-overflow error
exactly when the recomputed entry table, laid out from `table_start`,
would reach past the minimum data offset among all entries — the run
passes the guard only while `table_start + recomputed table size ≤
minimum data offset` — and on that abort the original file content,
header and entry table included, is unrewritten: the file carried by
the error extends the original byte for byte. -/
theorem claim_C1 (md5c : List Nat → List Nat) (f : FileBytes)
    (header : Header) (eo : List (Path × Nat))
    (files : List (Path × List Nat)) (m : EntryMap)
    (repls adds : List (Path × List Nat)) (plan : TablePlan)
    (c1 c2v c3 : AppendCtx) (m1 m2 m3 : EntryMap) (minOff : Nat)
    (hne : files ≠ [])
    (hdup : hasDupPath (files.map Prod.fst) = false)
    (hbuild : build_entry_map f eo = .ok m)
    (hra : split_inputs files m = (repls, adds))
    (hplan : plan_table m adds = .ok plan)
    (hmove : movePhase (AppendCtx.new f) m
      (moveTargets m (repls.map Prod.fst) plan) = .ok (c1, m1))
    (hadd : addPhase md5c c1 m1 plan.next_new_table_offset adds = (c2v, m2))
    (hrepl : replacePhase md5c c2v m2 repls = .ok (c3, m3))
    (hmin : minDataOffset m3 = some minOff) :
    (plan.table_start + tableSize m3 > minOff →
      replace_files_in_pck md5c f header eo files =
        .error ("table overflow", c3.file) ∧ c3.file.take f.length = f) ∧
    (plan.table_start + tableSize m3 ≤ minOff → m3.length < 4294967296 →
      ∃ f1, replace_files_in_pck md5c f header eo files = .ok f1) := by
  have hrun := replace_run md5c f header eo files m repls adds plan c1 c2v c3
    m1 m2 m3 hne hdup hbuild hra hplan hmove hadd hrepl
  constructor
  · intro hgt
    rw [hrun, writeBack_overflow c3.file header plan m3 minOff hmin hgt]
    refine ⟨rfl, ?_⟩
    rcases run_extends md5c f _ adds repls plan.next_new_table_offset
      m m1 m2 m3 c1 c2v c3 hmove hadd hrepl with ⟨_, ext, hext, _⟩
    rw [hext, List.take_left]
  · intro hle hcnt
    rw [hrun, writeBack_ok c3.file header plan m3 minOff hmin hle hcnt]
    exact ⟨_, rfl⟩

set_option maxRecDepth 40000 in
/-- Witness for C1: two additions overflow the guard of the two-entry
test archive (the error carries a file that extends the original), and
one addition passes it. -/
theorem claim_C1_witness :
    (replace_files_in_pck md5z fA hdrA eoA [([99], [7]), ([100], [8])] =
        .error ("table overflow",
          fA ++ ([1, 1, 1, 1] ++ [2, 2, 2, 2] ++ [7] ++ [8])) ∧
      (fA ++ ([1, 1, 1, 1] ++ [2, 2, 2, 2] ++ [7] ++ [8])).take fA.length =
        fA) ∧
    ∃ f1, replace_files_in_pck md5z fA hdrA eoA [([99], [7])] = .ok f1 :=
  ⟨(claim_C1 md5z fA hdrA eoA [([99], [7]), ([100], [8])] mA []
      [([99], [7]), ([100], [8])] ⟨88, 242, 162⟩ _ _ _ _ _ _ 208
      (by decide) (by decide) (by rfl) (by rfl) (by rfl) (by rfl) (by rfl)
      (by rfl) (by rfl)).1 (by decide),
   (claim_C1 md5z fA hdrA eoA [([99], [7])] mA [] [([99], [7])]
      ⟨88, 202, 162⟩ _ _ _ _ _ _ 204
      (by decide) (by decide) (by rfl) (by rfl) (by rfl) (by rfl) (by rfl)
      (by rfl) (by rfl)).2 (by decide) (by decide)⟩

/-- Claim C6: a successful replace pass never shrinks the file. Every
data-movement write lands at or past the original end of file — the
file reached by the data phases is the original with appended bytes —
no truncation follows, and the final length is the original length plus
the total bytes appended for relocations, additions and replacements. -/
theorem claim_C6 (md5c : List Nat → List Nat) (f : FileBytes)
    (header : Header) (eo : List (Path × Nat))
    (files : List (Path × List Nat)) (m : EntryMap)
    (repls adds : List (Path × List Nat)) (plan : TablePlan)
    (c1 c2v c3 : AppendCtx) (m1 m2 m3 : EntryMap) (f1 : FileBytes)
    (hne : files ≠ [])
    (hdup : hasDupPath (files.map Prod.fst) = false)
    (hbuild : build_entry_map f eo = .ok m)
    (hra : split_inputs files m = (repls, adds))
    (hplan : plan_table m adds = .ok plan)
    (hmove : movePhase (AppendCtx.new f) m
      (moveTargets m (repls.map Prod.fst) plan) = .ok (c1, m1))
    (hadd : addPhase md5c c1 m1 plan.next_new_table_offset adds = (c2v, m2))
    (hrepl : replacePhase md5c c2v m2 repls = .ok (c3, m3))
    (hwb : writeBack c3.file header plan m3 = .ok f1)
    (hmd5len : ∀ d, (md5c d).length = 16)
    (hres : header.reserved.length = 16)
    (h88 : 88 ≤ f.length) :
    replace_files_in_pck md5c f header eo files = .ok f1 ∧
    (∃ ext, c3.file = f ++ ext ∧
      ext.length =
        ((moveTargets m (repls.map Prod.fst) plan).map (fun t => t.2.2)).sum +
        (adds.map (fun pd => pd.2.length)).sum +
        (repls.map (fun pd => pd.2.length)).sum) ∧
    f1.length = f.length +
      (((moveTargets m (repls.map Prod.fst) plan).map (fun t => t.2.2)).sum +
        (adds.map (fun pd => pd.2.length)).sum +
        (repls.map (fun pd => pd.2.length)).sum) := by
  have hrun := replace_run md5c f header eo files m repls adds plan c1 c2v c3
    m1 m2 m3 hne hdup hbuild hra hplan hmove hadd hrepl
  rcases run_extends md5c f _ adds repls plan.next_new_table_offset
    m m1 m2 m3 c1 c2v c3 hmove hadd hrepl with ⟨hp3, ext, hext, hlen⟩
  have hc3len : c3.file.length = f.length + ext.length := by
    rw [hext]
    simp
  rcases writeBack_ok_inv c3.file header plan m3 f1 hwb with
    ⟨minOff, hmin, hle, hcnt, hf1⟩
  have hpos1 : c1.append_pos = c1.file.length :=
    (movePhase_extends _ (AppendCtx.new f) m c1 m1 hmove rfl).1
  have hwf : ∀ r ∈ m3, r.entry.path_bytes.length = r.entry.path_len ∧
      r.entry.md5.length = 16 :=
    phases_wf md5c f eo m m1 m2 m3 (AppendCtx.new f) c1 c2v c3 _
      plan.next_new_table_offset adds repls hmd5len hbuild hmove hadd
      hpos1 hrepl
  -- some surviving record sits at or below the post-append end of file
  have hrec : ∃ rec ∈ m3, rec.entry.offset ≤ c3.file.length := by
    match hrp : repls with
    | [] =>
      rw [replacePhase] at hrepl
      have hinj := Except.ok.inj hrepl
      rw [Prod.mk.injEq] at hinj
      have hadds : adds ≠ [] := by
        have := split_inputs_length files m
        rw [hra] at this
        dsimp only at this
        simp only [List.length_nil, Nat.zero_add] at this
        intro hc
        rw [hc] at this
        simp only [List.length_nil] at this
        cases files with
        | nil => exact hne rfl
        | cons a t => simp at this
      rcases addPhase_new adds md5c c1 m1 plan.next_new_table_offset hpos1
        hadds with ⟨rec, hrec2, _, hoff⟩
      rw [hadd] at hrec2 hoff
      dsimp only at hrec2 hoff
      exact ⟨rec, hinj.2 ▸ hrec2, by rw [← hinj.1]; exact hoff⟩
    | pd :: rest =>
      have hpos2 : c2v.append_pos = c2v.file.length := by
        have h2 := (addPhase_extends adds md5c c1 m1
          plan.next_new_table_offset hpos1).1
        rw [hadd] at h2
        exact h2
      exact replacePhase_last (pd :: rest) md5c c2v m2 c3 m3 hrepl hpos2
        (by simp)
  rcases hrec with ⟨rec, hrecm, hrecoff⟩
  have hminle : minOff ≤ c3.file.length :=
    Nat.le_trans (minDataOffset_le m3 minOff hmin rec hrecm) hrecoff
  have hTlen : (serializeTable m3).length = tableSize m3 :=
    length_serializeTable m3 hwf
  have hHlen : (serializeHeader { header with file_count := m3.length }).length
      = 88 := length_serializeHeader _ hres
  have hf1len : f1.length = c3.file.length := by
    rw [hf1, length_writeBytes, length_writeBytes, hHlen, hTlen]
    have h1 : 88 ≤ c3.file.length := by omega
    have h2 : plan.table_start + tableSize m3 ≤ c3.file.length := by omega
    omega
  refine ⟨?_, ⟨ext, hext, hlen⟩, ?_⟩
  · rw [hrun, hwb]
  · rw [hf1len, hc3len, hlen]

set_option maxRecDepth 40000 in
/-- Witness for C6: one addition to the two-entry test archive grows
the 208-byte file by exactly 4 relocated plus 1 added bytes. -/
theorem claim_C6_witness :
    ∃ f1, replace_files_in_pck md5z fA hdrA eoA [([99], [7])] = .ok f1 ∧
      f1.length = 213 := by
  have h := claim_C6 md5z fA hdrA eoA [([99], [7])] mA [] [([99], [7])]
    ⟨88, 202, 162⟩ _ _ _ _ _ _ _ (by decide) (by decide) (by rfl) (by rfl)
    (by rfl) (by rfl) (by rfl) (by rfl) (by rfl) (fun d => rfl) (by decide)
    (by decide)
  exact ⟨_, h.1, by rw [h.2.2]; rfl⟩

/-! ## Claim C2 -/

/-- Claim C2: in a successful replace pass, every existing entry that is
not in the replace set and whose data offset lies strictly below the
projected `table_end_after` is relocated — its index record ends up in
the final index with a new data offset at or past the old end of file,
the bytes of the resulting file at the new range equal the bytes
originally at the old range, and the size and checksum fields are
unchanged; entries of the replace set are never picked up by the
relocation step. -/
theorem claim_C2 (md5c : List Nat → List Nat) (f : FileBytes)
    (header : Header) (eo : List (Path × Nat))
    (files : List (Path × List Nat)) (m : EntryMap)
    (repls adds : List (Path × List Nat)) (plan : TablePlan)
    (c1 c2v c3 : AppendCtx) (m1 m2 m3 : EntryMap) (f1 : FileBytes)
    (hne : files ≠ [])
    (hdup : hasDupPath (files.map Prod.fst) = false)
    (hbuild : build_entry_map f eo = .ok m)
    (hra : split_inputs files m = (repls, adds))
    (hplan : plan_table m adds = .ok plan)
    (hmove : movePhase (AppendCtx.new f) m
      (moveTargets m (repls.map Prod.fst) plan) = .ok (c1, m1))
    (hadd : addPhase md5c c1 m1 plan.next_new_table_offset adds = (c2v, m2))
    (hrepl : replacePhase md5c c2v m2 repls = .ok (c3, m3))
    (hwb : writeBack c3.file header plan m3 = .ok f1)
    (hmd5len : ∀ d, (md5c d).length = 16)
    (hres : header.reserved.length = 16)
    (h88 : 88 ≤ f.length)
    (hnodupm : (m.map (fun r => r.path)).Nodup)
    (hwithin : ∀ r ∈ m, r.entry.offset + r.entry.size ≤ f.length) :
    replace_files_in_pck md5c f header eo files = .ok f1 ∧
    (∀ t ∈ moveTargets m (repls.map Prod.fst) plan,
      t.1 ∉ repls.map Prod.fst) ∧
    ∀ r ∈ m, r.path ∉ repls.map Prod.fst →
      r.entry.offset < plan.table_end_after →
      ∃ r1 ∈ m3, r1.path = r.path ∧ f.length ≤ r1.entry.offset ∧
        r1.entry.size = r.entry.size ∧ r1.entry.md5 = r.entry.md5 ∧
        (f1.drop r1.entry.offset).take r.entry.size =
          (f.drop r.entry.offset).take r.entry.size := by
  have hrun := replace_run md5c f header eo files m repls adds plan c1 c2v c3
    m1 m2 m3 hne hdup hbuild hra hplan hmove hadd hrepl
  have hpos1 : c1.append_pos = c1.file.length :=
    (movePhase_extends _ (AppendCtx.new f) m c1 m1 hmove rfl).1
  rcases writeBack_ok_inv c3.file header plan m3 f1 hwb with
    ⟨minOff, hmin, hle, hcnt, hf1⟩
  have hwf : ∀ r ∈ m3, r.entry.path_bytes.length = r.entry.path_len ∧
      r.entry.md5.length = 16 :=
    phases_wf md5c f eo m m1 m2 m3 (AppendCtx.new f) c1 c2v c3 _
      plan.next_new_table_offset adds repls hmd5len hbuild hmove hadd
      hpos1 hrepl
  have hadd2 := addPhase_extends adds md5c c1 m1 plan.next_new_table_offset
    hpos1
  rw [hadd] at hadd2
  dsimp only at hadd2
  obtain ⟨hpos2, e2, he2, -⟩ := hadd2
  rcases replacePhase_extends repls md5c c2v m2 c3 m3 hrepl hpos2 with
    ⟨hpos3, e3, he3, -⟩
  have he23 : c3.file = c1.file ++ (e2 ++ e3) := by
    rw [he3, he2, List.append_assoc]
  have hc1le3 : c1.file.length ≤ c3.file.length := by
    rw [he23]
    simp
  have hin : ∀ t ∈ moveTargets m (repls.map Prod.fst) plan,
      t.2.1 + t.2.2 ≤ f.length := by
    intro t ht
    rcases moveTargets_mem m (repls.map Prod.fst) plan t ht with
      ⟨-, -, r2, hr2, -, ho2, hs2⟩
    rw [← ho2, ← hs2]
    exact hwithin r2 hr2
  have htnd := moveTargets_nodup m (repls.map Prod.fst) plan hnodupm
  refine ⟨?_, ?_, ?_⟩
  · rw [hrun, hwb]
  · intro t ht
    have := (moveTargets_mem m (repls.map Prod.fst) plan t ht).1
    simpa using this
  · intro r hr hnotin hlt
    have hcont : (repls.map Prod.fst).contains r.path = false := by
      simpa using hnotin
    have ht := moveTargets_complete m (repls.map Prod.fst) plan r hr hcont hlt
    rcases movePhase_target (moveTargets m (repls.map Prod.fst) plan)
      (AppendCtx.new f) m c1 m1 f hmove rfl ⟨[], by simp [AppendCtx.new]⟩
      hin htnd (r.path, r.entry.offset, r.entry.size) ht ⟨r, hr, rfl⟩ with
      ⟨r1, hr1, hpath1, hoff1, hbound1, hbytes1⟩
    simp only [AppendCtx.new] at hoff1 hbound1 hbytes1
    rcases movePhase_entries (moveTargets m (repls.map Prod.fst) plan)
      (AppendCtx.new f) m c1 m1 hmove r1 hr1 with
      ⟨r0, hr0, hp0, -, -, -, hs0, hm0⟩
    have hr0r : r0 = r := by
      apply List.inj_on_of_nodup_map hnodupm hr0 hr
      rw [← hp0, hpath1]
    rw [hr0r] at hs0 hm0
    have hr1m2 : r1 ∈ m2 := by
      have := addPhase_mem adds md5c c1 m1 plan.next_new_table_offset r1 hr1
      rw [hadd] at this
      exact this
    have hr1m3 : r1 ∈ m3 := by
      apply replacePhase_keeps repls md5c c2v m2 c3 m3 hrepl r1 hr1m2
      rw [hpath1]
      exact hnotin
    have hminr1 : minOff ≤ r1.entry.offset :=
      minDataOffset_le m3 minOff hmin r1 hr1m3
    have hTlen : (serializeTable m3).length = tableSize m3 :=
      length_serializeTable m3 hwf
    have hHlen : (serializeHeader
        { header with file_count := m3.length }).length = 88 :=
      length_serializeHeader _ hres
    have hflen : f.length ≤ c1.file.length := by
      rcases (movePhase_extends _ (AppendCtx.new f) m c1 m1 hmove rfl).2 with
        ⟨e1, he1, -⟩
      rw [he1]
      simp [AppendCtx.new]
    have hXlen : (writeBytes c3.file 0 (serializeHeader
        { header with file_count := m3.length })).length = c3.file.length := by
      rw [length_writeBytes, hHlen]
      omega
    have hbytesf1 : (f1.drop r1.entry.offset).take r.entry.size =
        (c3.file.drop r1.entry.offset).take r.entry.size := by
      rw [hf1]
      rw [drop_writeBytes_above _ plan.table_start r1.entry.offset _
        (by rw [hXlen]; omega) (by rw [hTlen]; omega)]
      rw [drop_writeBytes_above c3.file 0 r1.entry.offset _
        (by omega) (by rw [hHlen]; omega)]
    have hbytesc3 : (c3.file.drop r1.entry.offset).take r.entry.size =
        (c1.file.drop r1.entry.offset).take r.entry.size := by
      rw [he23]
      exact take_drop_append_of_le c1.file (e2 ++ e3) r1.entry.offset
        r.entry.size (by omega)
    refine ⟨r1, hr1m3, hpath1, hoff1, hs0, hm0, ?_⟩
    rw [hbytesf1, hbytesc3]
    exact hbytes1

set_option maxRecDepth 40000 in
/-- Witness for C2: in the one-addition run on the test archive, entry
"a" (offset 200, below the projected table end 202) is relocated past
the old end of file 208 with its four data bytes intact. -/
theorem claim_C2_witness :
    ∃ f1, replace_files_in_pck md5z fA hdrA eoA [([99], [7])] = .ok f1 ∧
      ∃ o, 208 ≤ o ∧ (f1.drop o).take 4 = (fA.drop 200).take 4 := by
  have h := claim_C2 md5z fA hdrA eoA [([99], [7])] mA [] [([99], [7])]
    ⟨88, 202, 162⟩ _ _ _ _ _ _ _ (by decide) (by decide) (by rfl) (by rfl)
    (by rfl) (by rfl) (by rfl) (by rfl) (by rfl) (fun d => rfl) (by decide)
    (by decide) (by decide) (by decide)
  rcases h.2.2 ⟨[97], 88, ⟨1, [97], 200, 4, List.replicate 16 0⟩⟩
    (by decide) (by decide) (by decide) with
    ⟨r1, _, _, hoff, _, _, hbytes⟩
  exact ⟨_, h.1, r1.entry.offset, hoff, hbytes⟩

/-! ## Relayout lemmas for the delete pass -/

theorem relayoutGo_skip (rm : List Path) (cur : Nat) (r : EntryRecord)
    (rest : EntryMap) (hc : rm.contains r.path = true) :
    relayoutGo rm cur (r :: rest) = relayoutGo rm cur rest := by
  rw [relayoutGo, if_pos hc]

theorem relayoutGo_keep (rm : List Path) (cur : Nat) (r : EntryRecord)
    (rest : EntryMap) (hc : rm.contains r.path = false) :
    relayoutGo rm cur (r :: rest) =
      (⟨r.path, cur, r.entry⟩ ::
        (relayoutGo rm (cur + entry_binary_size r.entry.path_len) rest).1,
       (relayoutGo rm (cur + entry_binary_size r.entry.path_len) rest).2) := by
  rw [relayoutGo, if_neg (by simp only [hc, Bool.false_eq_true,
    not_false_eq_true])]

theorem relayoutGo_entries (rm : List Path) (cur : Nat) (m : EntryMap) :
    (relayoutGo rm cur m).1.map (fun r => (r.path, r.entry)) =
      (m.filter (fun r => !(rm.contains r.path))).map
        (fun r => (r.path, r.entry)) := by
  induction m generalizing cur with
  | nil => rfl
  | cons r rest ih =>
    cases hc : rm.contains r.path
    · rw [relayoutGo_keep rm cur r rest hc]
      simp only [List.filter_cons, hc, Bool.not_false, if_true, List.map_cons]
      rw [ih (cur + entry_binary_size r.entry.path_len)]
    · rw [relayoutGo_skip rm cur r rest hc]
      simp only [List.filter_cons, hc, Bool.not_true, Bool.false_eq_true,
        if_false]
      exact ih cur

theorem relayoutGo_snd (rm : List Path) (m : EntryMap) :
    ∀ cur, (relayoutGo rm cur m).2 = cur + tableSize (relayoutGo rm cur m).1 := by
  induction m with
  | nil => intro cur; simp [relayoutGo, tableSize]
  | cons r rest ih =>
    intro cur
    cases hc : rm.contains r.path
    · rw [relayoutGo_keep rm cur r rest hc]
      have := ih (cur + entry_binary_size r.entry.path_len)
      simp only [tableSize, List.map_cons, List.sum_cons] at this ⊢
      omega
    · rw [relayoutGo_skip rm cur r rest hc]
      exact ih cur

theorem relayoutGo_offset (rm : List Path) (m : EntryMap) :
    ∀ (cur i : Nat) (r1 : EntryRecord),
      (relayoutGo rm cur m).1[i]? = some r1 →
      r1.table_offset = cur + tableSize ((relayoutGo rm cur m).1.take i) := by
  induction m with
  | nil => intro cur i r1 h; simp [relayoutGo] at h
  | cons r rest ih =>
    intro cur i r1 h
    cases hc : rm.contains r.path
    · rw [relayoutGo_keep rm cur r rest hc] at h ⊢
      cases i with
      | zero =>
        simp only [List.getElem?_cons_zero, Option.some.injEq] at h
        simp [← h, tableSize]
      | succ i =>
        simp only [List.getElem?_cons_succ] at h
        have := ih (cur + entry_binary_size r.entry.path_len) i r1 h
        simp only [List.take_succ_cons, tableSize, List.map_cons,
          List.sum_cons] at this ⊢
        omega
    · rw [relayoutGo_skip rm cur r rest hc] at h ⊢
      exact ih cur i r1 h

theorem relayoutGo_length (rm : List Path) (cur : Nat) (m : EntryMap)
    (hnodupm : (m.map (fun r => r.path)).Nodup) (hnodup : rm.Nodup)
    (hall : ∀ p ∈ rm, hasPath m p = true) :
    (relayoutGo rm cur m).1.length = m.length - rm.length := by
  have h1 : (relayoutGo rm cur m).1.length =
      (m.filter (fun r => !(rm.contains r.path))).length := by
    have h := congrArg List.length (relayoutGo_entries rm cur m)
    simpa using h
  have hnd : ((m.filter (fun r => rm.contains r.path)).map
      (fun r => r.path)).Nodup :=
    List.Nodup.sublist ((List.filter_sublist m).map _) hnodupm
  have h2 : ((m.filter (fun r => rm.contains r.path)).map
      (fun r => r.path)).Perm rm := by
    rw [List.perm_ext_iff_of_nodup hnd hnodup]
    intro q
    constructor
    · intro hq
      simp only [List.mem_map, List.mem_filter] at hq
      obtain ⟨r, ⟨hrm, hrc⟩, hrq⟩ := hq
      rw [← hrq]
      simpa using hrc
    · intro hq
      have hp := hall q hq
      rw [hasPath_iff] at hp
      obtain ⟨r, hrm, hrp⟩ := hp
      simp only [List.mem_map, List.mem_filter]
      exact ⟨r, ⟨hrm, by rw [hrp]; simpa using hq⟩, hrp⟩
  have h3 : (m.filter (fun r => rm.contains r.path)).length = rm.length := by
    have h := h2.length_eq
    simpa using h
  have h4 := List.length_eq_length_filter_add
    (l := m) (fun r => rm.contains r.path)
  omega

/-- C5: a successful delete that removes the present listed paths
rewrites `file_count` to the old entry count minus the number removed,
lays the surviving records out contiguously from the table start in
their original relative order with entry payloads unchanged, and
truncates the file to the maximum of the new table end and the largest
data end among the survivors. -/
theorem claim_C5 (f : FileBytes) (header : Header) (eo : List (Path × Nat))
    (paths existing : List Path) (m rest : EntryMap) (e0 : EntryRecord)
    (rl : EntryMap × Nat) (f1 : FileBytes)
    (hex : existing = paths.filter (fun p => hasPath m p))
    (hrl : rl = relayoutGo existing e0.table_offset m)
    (hbuild : build_entry_map f eo = .ok m)
    (hm : m = e0 :: rest)
    (hexne : existing ≠ [])
    (hnodupm : (m.map (fun r => r.path)).Nodup)
    (hres : header.reserved.length = 16)
    (h88 : 88 ≤ e0.table_offset)
    (hdel : delete_files_in_pck f header eo paths = .ok f1) :
    rl.1.length = m.length - existing.length ∧
    readU32 f1 84 = some rl.1.length ∧
    rl.1.map (fun r => (r.path, r.entry)) =
      (m.filter (fun r => !(existing.contains r.path))).map
        (fun r => (r.path, r.entry)) ∧
    (∀ i r1, rl.1[i]? = some r1 →
      r1.table_offset = e0.table_offset + tableSize (rl.1.take i)) ∧
    f1.length = max (e0.table_offset + tableSize rl.1) (maxDataEnd rl.1) := by
  have hpne : paths ≠ [] := by
    intro hp
    rw [hp] at hex
    exact hexne (by simpa using hex)
  have hie : paths.isEmpty = false := by
    cases paths with
    | nil => exact absurd rfl hpne
    | cons a t => rfl
  rw [delete_files_in_pck, hie] at hdel
  simp only [Bool.false_eq_true, if_false] at hdel
  cases hdp : hasDupPath paths with
  | true =>
    rw [hdp] at hdel
    simp at hdel
  | false =>
  rw [hdp] at hdel
  simp only [Bool.false_eq_true, if_false] at hdel
  rw [hbuild] at hdel
  dsimp only at hdel
  rw [← hex] at hdel
  have hiex : existing.isEmpty = false := List.isEmpty_eq_false.mpr hexne
  rw [hiex] at hdel
  simp only [Bool.false_eq_true, if_false] at hdel
  rw [hm] at hrl
  rw [hm] at hdel
  dsimp only at hdel
  rw [← hrl] at hdel
  cases hre : rl.1.isEmpty with
  | true =>
    rw [hre] at hdel
    simp at hdel
  | false =>
  rw [hre] at hdel
  simp only [Bool.false_eq_true, if_false] at hdel
  have hrlne : rl.1 ≠ [] := List.isEmpty_eq_false.mp hre
  obtain ⟨minOff, hmin⟩ := minDataOffset_isSome rl.1 hrlne
  rw [hmin] at hdel
  dsimp only at hdel
  split at hdel
  · exact absurd hdel (by simp)
  split at hdel
  · exact absurd hdel (by simp)
  rename_i hguard hcount
  simp only [Except.ok.injEq] at hdel
  -- derived facts for the counting argument
  have hpaths_nodup : paths.Nodup := by
    by_contra hc
    have h := (hasDupPath_iff paths).mpr hc
    rw [hdp] at h
    exact Bool.noConfusion h
  have hex_nodup : existing.Nodup := by
    rw [hex]
    exact List.Nodup.filter _ hpaths_nodup
  have hall : ∀ p ∈ existing, hasPath m p = true := by
    intro p hp
    rw [hex] at hp
    exact (List.mem_filter.mp hp).2
  have hmrl : rl = relayoutGo existing e0.table_offset m := by rw [hrl, hm]
  have hcnt : rl.1.length = m.length - existing.length := by
    rw [hmrl]
    exact relayoutGo_length existing e0.table_offset m hnodupm hex_nodup hall
  have hsnd : rl.2 = e0.table_offset + tableSize rl.1 := by
    rw [hmrl]
    exact relayoutGo_snd existing m e0.table_offset
  refine ⟨hcnt, ?_, ?_, ?_, ?_⟩
  · -- file_count read back from the rewritten header
    have hhl : (serializeHeader
        { header with file_count := rl.1.length }).length = 88 :=
      length_serializeHeader _ hres
    have hfh : 88 ≤ (writeBytes f 0 (serializeHeader
        { header with file_count := rl.1.length })).length := by
      rw [length_writeBytes, hhl]
      omega
    have hf2 : 88 ≤ (writeBytes (writeBytes f 0 (serializeHeader
        { header with file_count := rl.1.length })) e0.table_offset
        (serializeTable rl.1)).length := by
      rw [length_writeBytes]
      omega
    rw [← hdel, readU32, readBytes_setLen _ _ _ _ (by omega) (by omega),
      readBytes_writeBytes_below _ _ _ _ _ (by omega) (by omega)]
    have hwin := readBytes_writeBytes_within f 0 84 4
      (serializeHeader { header with file_count := rl.1.length })
      (Nat.zero_le _) (by rw [hhl])
    rw [Nat.zero_add] at hwin
    rw [hwin, serializeHeader_drop84
      { header with file_count := rl.1.length } hres]
    have htk : (le32 rl.1.length).take 4 = le32 rl.1.length :=
      List.take_of_length_le (le_of_eq (length_le32 _))
    rw [htk, Option.map_some', leVal_le32, Nat.mod_eq_of_lt (by omega)]
  · rw [hmrl]
    exact relayoutGo_entries existing e0.table_offset m
  · intro i r1 h
    rw [hmrl] at h ⊢
    exact relayoutGo_offset existing m e0.table_offset i r1 h
  · rw [← hdel, length_setLen]
    omega

set_option maxRecDepth 40000 in
/-- Witness for C5: deleting "a" from the two-entry test archive leaves
one entry, the rewritten header reads back a file count of 1, and the
file is truncated to 208 bytes, the data end of the surviving entry. -/
theorem claim_C5_witness :
    ∃ f1, delete_files_in_pck fA hdrA eoA [[97]] = .ok f1 ∧
      readU32 f1 84 = some 1 ∧ f1.length = 208 := by
  obtain ⟨f1, hdel⟩ : ∃ f1, delete_files_in_pck fA hdrA eoA [[97]] = .ok f1 :=
    ⟨_, rfl⟩
  have h := claim_C5 fA hdrA eoA [[97]] [[97]] mA
    [⟨[98], 125, ⟨1, [98], 204, 4, List.replicate 16 0⟩⟩]
    ⟨[97], 88, ⟨1, [97], 200, 4, List.replicate 16 0⟩⟩
    (relayoutGo [[97]] 88 mA) f1
    (by decide) (by rfl) (by rfl) (by rfl) (by decide) (by decide)
    (by rfl) (by decide) hdel
  refine ⟨f1, hdel, ?_, ?_⟩
  · rw [h.2.1]
    decide
  · rw [h.2.2.2.2]
    decide

/-- C8: with a well-formed nonempty batch, listed paths absent from the
archive are silently ignored — if none is present the call succeeds with
the file unchanged — and when the listed paths cover every entry, the
call fails and the error carries the untouched file, no header or table
having been written. -/
theorem claim_C8 (f : FileBytes) (header : Header) (eo : List (Path × Nat))
    (paths : List Path) (m : EntryMap)
    (hpne : paths ≠ [])
    (hdup : hasDupPath paths = false)
    (hbuild : build_entry_map f eo = .ok m) :
    ((∀ p ∈ paths, hasPath m p = false) →
      delete_files_in_pck f header eo paths = .ok f) ∧
    (m ≠ [] → (∀ r ∈ m, r.path ∈ paths) →
      ∃ e, delete_files_in_pck f header eo paths = .error (e, f)) := by
  have hie : paths.isEmpty = false := by
    cases paths with
    | nil => exact absurd rfl hpne
    | cons a t => rfl
  constructor
  · intro hnone
    have hfil : paths.filter (fun p => hasPath m p) = [] := by
      apply List.filter_eq_nil_iff.mpr
      intro p hp
      simp [hnone p hp]
    rw [delete_files_in_pck, hie]
    simp only [Bool.false_eq_true, if_false, hdup]
    rw [hbuild]
    dsimp only
    rw [hfil]
    rfl
  · intro hmne hall
    cases m with
    | nil => exact absurd rfl hmne
    | cons e0 rest =>
      have hhas : ∀ r ∈ e0 :: rest, hasPath (e0 :: rest) r.path = true := by
        intro r hr
        exact (hasPath_iff _ _).mpr ⟨r, hr, rfl⟩
      have hmem : ∀ r ∈ e0 :: rest,
          r.path ∈ paths.filter (fun p => hasPath (e0 :: rest) p) := by
        intro r hr
        exact List.mem_filter.mpr ⟨hall r hr, hhas r hr⟩
      have hfe : (paths.filter
          (fun p => hasPath (e0 :: rest) p)).isEmpty = false := by
        apply List.isEmpty_eq_false.mpr
        intro hc
        have h0 := hmem e0 (List.mem_cons_self e0 rest)
        rw [hc] at h0
        exact List.not_mem_nil _ h0
      have hrl1 : (relayoutGo (paths.filter (fun p => hasPath (e0 :: rest) p))
          e0.table_offset (e0 :: rest)).1 = [] := by
        have hfil2 : (e0 :: rest).filter (fun r =>
            !((paths.filter (fun p => hasPath (e0 :: rest) p)).contains
              r.path)) = [] := by
          apply List.filter_eq_nil_iff.mpr
          intro r hr
          simp only [Bool.not_eq_true', Bool.not_eq_false]
          simpa using hmem r hr
        have hmap : ((relayoutGo
            (paths.filter (fun p => hasPath (e0 :: rest) p))
            e0.table_offset (e0 :: rest)).1.map
              (fun r => (r.path, r.entry))) = [] := by
          rw [relayoutGo_entries, hfil2]
          rfl
        exact List.map_eq_nil_iff.mp hmap
      rw [delete_files_in_pck, hie]
      simp only [Bool.false_eq_true, if_false, hdup]
      rw [hbuild]
      dsimp only
      rw [hfe]
      simp only [Bool.false_eq_true, if_false]
      rw [hrl1]
      exact ⟨_, rfl⟩

set_option maxRecDepth 40000 in
/-- Witness for C8: deleting the absent path "x" from the test archive
succeeds and leaves the file unchanged, while deleting both "a" and "b"
fails with an error carrying the untouched file. -/
theorem claim_C8_witness :
    delete_files_in_pck fA hdrA eoA [[120]] = .ok fA ∧
    ∃ e, delete_files_in_pck fA hdrA eoA [[97], [98]] = .error (e, fA) := by
  constructor
  · exact (claim_C8 fA hdrA eoA [[120]] mA (by decide) (by decide)
      (by rfl)).1 (by decide)
  · exact (claim_C8 fA hdrA eoA [[97], [98]] mA (by decide) (by decide)
      (by rfl)).2 (by decide) (by decide)

end Pck
